import Mathlib

/-!
Verification of the dagger DAG-execution library.

Two shallow embeddings are developed:

1. A graph model for the construction-time cycle validator (`dag.go`):
   nodes are keyed by identity, matching the Go code's use of the pointer
   (`fmt.Sprintf("%p", step)`) as the key of the `visited` map.  A graph is a
   list of nodes; the index of a node in the list is its identity.  This
   store-based model is necessary because the cycle claims are precisely
   about identity-based sharing (diamonds) and about cyclic object graphs
   obtained by mutation, which an inductive tree cannot represent.

2. An inductive `Step` tree with an event trace for the execution engine
   (`step.go`, `result_step.go`, `middleware.go`): leaves, the composite
   constructs, the middleware chain and the context-scoped result error.

Go's unbounded recursion in `checkDAGRecursive` is modelled with a fuel
parameter; `checkDAGCycles` supplies fuel `g.length + 1`, and the lemma
`checkRecF_no_exhaust` proves this fuel is never exhausted on well-formed
graphs, so the fuelled function coincides with the Go recursion.
-/

namespace Dagger

/-! ### The cycle-validator graph model

One node of the composite graph, as seen by `checkDAGRecursive`'s type
switch in dag.go:

* `leaf`: a step with no Unwrap method (StepFunc, stepWithErr).
* `single c`: a step with an Unwrap returning one Step — only `ifStep`.
* `multi cs`: a step whose Unwrap returns a slice — `ifElseStep`,
  `seriesStep`, `continueStep`.
* `resultNode m sc hs`: a `resultStep`; its Unwrap returns only
  the main and success steps. `hs` records the steps referenced by its
  failure handler, which the Go Unwrap does NOT expose (the TODO comment
  in result_step.go); the checker accordingly ignores `hs`.
-/
inductive GNode where
  | leaf : GNode
  | single (child : Nat) : GNode
  | multi (children : List Nat) : GNode
  | resultNode (main succ : Nat) (handlerSteps : List Nat) : GNode
deriving DecidableEq, Repr

/-- Node of a graph at identity `n`; out-of-range identities are leaves. -/
def nodeAt (g : List GNode) (n : Nat) : GNode := g.getD n .leaf

@[simp] theorem nodeAt_nil (n : Nat) : nodeAt [] n = .leaf := by
  cases n <;> rfl

@[simp] theorem nodeAt_cons_zero (x : GNode) (l : List GNode) :
    nodeAt (x :: l) 0 = x := rfl

@[simp] theorem nodeAt_cons_succ (x : GNode) (l : List GNode) (n : Nat) :
    nodeAt (x :: l) (n + 1) = nodeAt l n := rfl

/-- The children exposed by the Unwrap interface of each node kind
(the edges `checkDAGRecursive` traverses). -/
def unwrapKids : GNode → List Nat
  | .leaf => []
  | .single c => [c]
  | .multi cs => cs
  | .resultNode m sc _ => [m, sc]

/-- The steps referenced by a result node's failure handler (not exposed
by Unwrap). -/
def handlerRefs : GNode → List Nat
  | .resultNode _ _ hs => hs
  | _ => []

/-- All children including failure-handler references. -/
def allKids (nd : GNode) : List Nat := unwrapKids nd ++ handlerRefs nd

/-- Erase failure-handler references from a node. -/
def eraseHandlers : GNode → GNode
  | .resultNode m sc _ => .resultNode m sc []
  | nd => nd

/-- Result of the fuelled checker: `none` is fuel exhaustion (never happens
for the fuel supplied by `checkDAGCycles`, see `checkRecF_no_exhaust`);
an `Except.error n` is Go's `ErrCycle` naming node `n`; `Except.ok v`
returns the updated `visited` map. -/
abbrev CkRes := Option (Except Nat (List Nat))

/-- The loop over a multi-child node's children inside `checkDAGRecursive`:
run `f` on each child in order, threading the visited set, stopping at the
first error. -/
def goKids (f : Nat → List Nat → CkRes) : List Nat → List Nat → CkRes
  | [], v => some (.ok v)
  | c :: rest, v =>
    match f c v with
    | some (.ok w) => goKids f rest w
    | r => r

/-- The `delete(visited, ptr)` performed after the multi-child loop. -/
def eraseRes (n : Nat) : CkRes → CkRes
  | some (.ok w) => some (.ok (w.erase n))
  | r => r

/-- One level of `checkDAGRecursive`, parameterised by the recursive call
`rec` used for the children.  Faithful transcription of dag.go lines
73-97.  Note the `single` case: the Go code does
`return checkDAGRecursive(s.Unwrap(), visited)` and therefore never
reaches the `delete(visited, ptr)` — the node stays in the visited set. -/
def checkStep (g : List GNode) (rec : Nat → List Nat → CkRes)
    (n : Nat) (v : List Nat) : CkRes :=
  if n ∈ v then some (.error n)
  else
    match nodeAt g n with
    | .leaf => some (.ok ((n :: v).erase n))
    | .single c => rec c (n :: v)
    | .multi cs => eraseRes n (goKids rec cs (n :: v))
    | .resultNode m sc _ => eraseRes n (goKids rec [m, sc] (n :: v))

/-- Fuelled `checkDAGRecursive`. -/
def checkRecF (g : List GNode) : Nat → Nat → List Nat → CkRes
  | 0 => fun _ _ => none
  | fuel + 1 => checkStep g (checkRecF g fuel)

/-- Go's `checkDAGCycles`: run the recursion from the root with an empty
visited map.  Fuel `g.length + 1` is shown sufficient in
`checkRecF_no_exhaust`. -/
def checkDAGCycles (g : List GNode) (root : Nat) : CkRes :=
  checkRecF g (g.length + 1) root []

/-- Go's `ErrCycle`: names the step at which the checker found the
identity already in the visited set. -/
structure ErrCycle where
  stepId : Nat
deriving DecidableEq, Repr

/-- Go's `ErrInvalid`: the construction error returned by `New`, wrapping
the cycle error. -/
structure ErrInvalid where
  err : ErrCycle
deriving DecidableEq, Repr

/-- Go's `New`: validate, then return the Executor (modelled by `Unit`).
`none` again means fuel exhaustion, impossible on well-formed graphs. -/
def newExec (g : List GNode) (root : Nat) : Option (Except ErrInvalid Unit) :=
  match checkDAGCycles g root with
  | none => none
  | some (.error m) => some (.error ⟨⟨m⟩⟩)
  | some (.ok _) => some (.ok ())

/-! ### Walks along the Unwrap edges -/

/-- A walk through the graph following Unwrap edges; the list records all
visited nodes, from `a` to `b` inclusive. -/
inductive Walk (g : List GNode) : Nat → Nat → List Nat → Prop
  | nil (a : Nat) : Walk g a a [a]
  | cons {a b c : Nat} {l : List Nat} (hab : b ∈ unwrapKids (nodeAt g a))
      (h : Walk g b c l) : Walk g a c (a :: l)

/-- A walk that may additionally use failure-handler references. -/
inductive WalkF (g : List GNode) : Nat → Nat → List Nat → Prop
  | nil (a : Nat) : WalkF g a a [a]
  | cons {a b c : Nat} {l : List Nat} (hab : b ∈ allKids (nodeAt g a))
      (h : WalkF g b c l) : WalkF g a c (a :: l)

theorem Walk.ne_nil {g : List GNode} {a b : Nat} {l : List Nat}
    (h : Walk g a b l) : l ≠ [] := by
  cases h <;> simp

theorem Walk.head_eq {g : List GNode} {a b : Nat} {l : List Nat}
    (h : Walk g a b l) : ∃ t, l = a :: t := by
  cases h with
  | nil => exact ⟨[], rfl⟩
  | cons hab h => exact ⟨_, rfl⟩

theorem Walk.end_mem {g : List GNode} {a b : Nat} {l : List Nat}
    (h : Walk g a b l) : b ∈ l := by
  induction h with
  | nil => simp
  | cons hab h ih => exact List.mem_cons_of_mem _ ih

theorem Walk.append {g : List GNode} {a b c : Nat} {l1 l2 : List Nat}
    (h1 : Walk g a b l1) (h2 : Walk g b c l2) :
    Walk g a c (l1.dropLast ++ l2) := by
  induction h1 with
  | nil => simpa using h2
  | cons hab h ih =>
    rename_i a2 b2 c2 l
    have hne : l ≠ [] := h.ne_nil
    cases l with
    | nil => exact absurd rfl hne
    | cons x xs =>
      simpa [List.dropLast] using Walk.cons hab (ih h2)

/-- A genuine cycle (a walk of length at least 2 from a node to itself)
never yields a duplicate-free node list. -/
theorem Walk.cycle_not_nodup {g : List GNode} {n : Nat} {l : List Nat}
    (h : Walk g n n l) (hlen : 2 ≤ l.length) : ¬ l.Nodup := by
  cases h with
  | nil => simp at hlen
  | cons hab h =>
    intro hnd
    rw [List.nodup_cons] at hnd
    exact hnd.1 h.end_mem

/-! ### Basic invariants of the checker -/

theorem goKids_sub {f : Nat → List Nat → CkRes}
    (hf : ∀ c v w, f c v = some (.ok w) → v ⊆ w) :
    ∀ cs v w, goKids f cs v = some (.ok w) → v ⊆ w := by
  intro cs
  induction cs with
  | nil => intro v w h; simp [goKids] at h; simp [h]
  | cons c rest ih =>
    intro v w h
    simp only [goKids] at h
    cases hc : f c v with
    | none => rw [hc] at h; exact absurd h (by simp)
    | some r =>
      cases r with
      | error m => rw [hc] at h; exact absurd h (by simp)
      | ok w1 =>
        rw [hc] at h
        exact (hf c v w1 hc).trans (ih w1 w h)

/-- On success, the visited set only grows (the `single` branch leaks its
node; the other branches restore it). -/
theorem checkRecF_sub (g : List GNode) :
    ∀ fuel n v w, checkRecF g fuel n v = some (.ok w) → v ⊆ w := by
  intro fuel
  induction fuel with
  | zero => intro n v w h; exact absurd h (by simp [checkRecF])
  | succ fu ih =>
    intro n v w h
    simp only [checkRecF, checkStep] at h
    by_cases hv : n ∈ v
    · simp [hv] at h
    · rw [if_neg hv] at h
      have hsub : v ⊆ n :: v := by intro x hx; exact List.mem_cons_of_mem _ hx
      cases hnd : nodeAt g n with
      | leaf =>
        rw [hnd] at h
        simp only [] at h
        simp only [List.erase_cons_head, Option.some.injEq, Except.ok.injEq] at h
        simp [← h]
      | single c =>
        rw [hnd] at h
        simp only [] at h
        exact hsub.trans (ih c (n :: v) w h)
      | multi cs =>
        rw [hnd] at h
        simp only [] at h
        cases hg : goKids (checkRecF g fu) cs (n :: v) with
        | none => rw [hg] at h; simp [eraseRes] at h
        | some r =>
          cases r with
          | error m => rw [hg] at h; simp [eraseRes] at h
          | ok w0 =>
            rw [hg] at h
            simp only [eraseRes, Option.some.injEq, Except.ok.injEq] at h
            have h1 : n :: v ⊆ w0 := goKids_sub (fun c v w => ih c v w) cs _ _ hg
            intro x hx
            rw [← h]
            have hxn : x ≠ n := by intro he; subst he; exact hv hx
            exact (List.mem_erase_of_ne hxn).mpr (h1 (List.mem_cons_of_mem _ hx))
      | resultNode m sc hs =>
        rw [hnd] at h
        simp only [] at h
        cases hg : goKids (checkRecF g fu) [m, sc] (n :: v) with
        | none => rw [hg] at h; simp [eraseRes] at h
        | some r =>
          cases r with
          | error m2 => rw [hg] at h; simp [eraseRes] at h
          | ok w0 =>
            rw [hg] at h
            simp only [eraseRes, Option.some.injEq, Except.ok.injEq] at h
            have h1 : n :: v ⊆ w0 := goKids_sub (fun c v w => ih c v w) _ _ _ hg
            intro x hx
            rw [← h]
            have hxn : x ≠ n := by intro he; subst he; exact hv hx
            exact (List.mem_erase_of_ne hxn).mpr (h1 (List.mem_cons_of_mem _ hx))

/-- If the child loop succeeds, then every child was checked successfully
from some visited set extending the initial one. -/
theorem goKids_mid {f : Nat → List Nat → CkRes}
    (hf : ∀ c v w, f c v = some (.ok w) → v ⊆ w) :
    ∀ cs v w, goKids f cs v = some (.ok w) →
      ∀ c ∈ cs, ∃ u u2, v ⊆ u ∧ f c u = some (.ok u2) := by
  intro cs
  induction cs with
  | nil => intro v w h c hc; simp at hc
  | cons c0 rest ih =>
    intro v w h c hc
    simp only [goKids] at h
    cases hc0 : f c0 v with
    | none => rw [hc0] at h; exact absurd h (by simp)
    | some r =>
      cases r with
      | error m => rw [hc0] at h; exact absurd h (by simp)
      | ok w1 =>
        rw [hc0] at h
        rcases List.mem_cons.mp hc with he | hrest
        · exact ⟨v, w1, fun x hx => hx, he ▸ hc0⟩
        · rcases ih w1 w h c hrest with ⟨u, u2, hu, hfu⟩
          exact ⟨u, u2, (hf c0 v w1 hc0).trans hu, hfu⟩

/-- Soundness of the checker: if `checkDAGRecursive` succeeds from visited
set `v`, then every walk from the checked node visits pairwise-distinct
nodes, none of which are in `v`.  (The leaked `single` nodes only make the
visited set larger, so success is only harder to obtain; this direction is
unaffected by the leak.) -/
theorem checkRecF_sound {g : List GNode} :
    ∀ {a b : Nat} {l : List Nat}, Walk g a b l →
      ∀ fuel v w, checkRecF g fuel a v = some (.ok w) →
        l.Nodup ∧ ∀ x ∈ l, x ∉ v := by
  intro a b l hw
  induction hw with
  | nil a =>
    intro fuel v w h
    cases fuel with
    | zero => exact absurd h (by simp [checkRecF])
    | succ fu =>
      simp only [checkRecF, checkStep] at h
      by_cases hv : a ∈ v
      · simp [hv] at h
      · exact ⟨List.nodup_singleton a, by simpa using hv⟩
  | cons hab hwalk ih =>
    rename_i a b c l
    intro fuel v w h
    cases fuel with
    | zero => exact absurd h (by simp [checkRecF])
    | succ fu =>
      simp only [checkRecF, checkStep] at h
      by_cases hv : a ∈ v
      · simp [hv] at h
      · rw [if_neg hv] at h
        cases hnd : nodeAt g a with
        | leaf =>
          rw [hnd] at hab
          simp [unwrapKids] at hab
        | single c0 =>
          rw [hnd] at h
          simp only [] at h
          rw [hnd] at hab
          simp only [unwrapKids, List.mem_singleton] at hab
          subst hab
          rcases ih fu (a :: v) w h with ⟨hnd1, hnotin⟩
          refine ⟨List.nodup_cons.mpr ⟨fun hmem => ?_, hnd1⟩, ?_⟩
          · exact (hnotin a hmem) (List.mem_cons_self a v)
          · intro x hx
            rcases List.mem_cons.mp hx with he | hl
            · exact he ▸ hv
            · exact fun hxv => (hnotin x hl) (List.mem_cons_of_mem _ hxv)
        | multi cs =>
          rw [hnd] at h
          simp only [] at h
          rw [hnd] at hab
          simp only [unwrapKids] at hab
          cases hg : goKids (checkRecF g fu) cs (a :: v) with
          | none => rw [hg] at h; simp [eraseRes] at h
          | some r =>
            cases r with
            | error m => rw [hg] at h; simp [eraseRes] at h
            | ok w0 =>
              rcases goKids_mid (fun c v w => checkRecF_sub g fu c v w) cs _ _ hg
                b hab with ⟨u, u2, hu, hfu⟩
              rcases ih fu u u2 hfu with ⟨hnd1, hnotin⟩
              refine ⟨List.nodup_cons.mpr ⟨fun hmem => ?_, hnd1⟩, ?_⟩
              · exact (hnotin a hmem) (hu (List.mem_cons_self a v))
              · intro x hx
                rcases List.mem_cons.mp hx with he | hl
                · exact he ▸ hv
                · exact fun hxv =>
                    (hnotin x hl) (hu (List.mem_cons_of_mem _ hxv))
        | resultNode m sc hs =>
          rw [hnd] at h
          simp only [] at h
          rw [hnd] at hab
          simp only [unwrapKids] at hab
          cases hg : goKids (checkRecF g fu) [m, sc] (a :: v) with
          | none => rw [hg] at h; simp [eraseRes] at h
          | some r =>
            cases r with
            | error m2 => rw [hg] at h; simp [eraseRes] at h
            | ok w0 =>
              have hb : b ∈ [m, sc] := by simpa using hab
              rcases goKids_mid (fun c v w => checkRecF_sub g fu c v w) [m, sc] _ _ hg
                b hb with ⟨u, u2, hu, hfu⟩
              rcases ih fu u u2 hfu with ⟨hnd1, hnotin⟩
              refine ⟨List.nodup_cons.mpr ⟨fun hmem => ?_, hnd1⟩, ?_⟩
              · exact (hnotin a hmem) (hu (List.mem_cons_self a v))
              · intro x hx
                rcases List.mem_cons.mp hx with he | hl
                · exact he ▸ hv
                · exact fun hxv =>
                    (hnotin x hl) (hu (List.mem_cons_of_mem _ hxv))

/-! ### Fuel adequacy

A Go object graph is finite, so `checkDAGRecursive` always terminates:
each recursion level inserts a previously-absent identity into `visited`,
whose size is bounded by the number of nodes.  The following lemmas show
that fuel `g.length + 1` can therefore never run out, i.e. the fuelled
model computes exactly what the Go recursion computes. -/

/-- Well-formed graph: every Unwrap edge stays inside the store. -/
def gwf (g : List GNode) : Prop :=
  ∀ nd ∈ g, ∀ c ∈ unwrapKids nd, c < g.length

instance (g : List GNode) : Decidable (gwf g) := by
  unfold gwf; infer_instance

theorem nodeAt_mem {g : List GNode} {n : Nat} (h : n < g.length) :
    nodeAt g n ∈ g := by
  unfold nodeAt
  rw [List.getD_eq_getElem g _ h]
  exact List.getElem_mem h

theorem kids_bound {g : List GNode} (hg : gwf g) {n : Nat} (hn : n < g.length) :
    ∀ c ∈ unwrapKids (nodeAt g n), c < g.length :=
  hg (nodeAt g n) (nodeAt_mem hn)

theorem nodup_length_le {v : List Nat} {L : Nat} (hnd : v.Nodup)
    (hb : ∀ x ∈ v, x < L) : v.length ≤ L := by
  classical
  have h1 : v.toFinset.card = v.length := List.toFinset_card_of_nodup hnd
  have h2 : v.toFinset ⊆ Finset.range L := by
    intro x hx
    simp only [List.mem_toFinset] at hx
    simpa using hb x hx
  have h3 := Finset.card_le_card h2
  simp only [Finset.card_range] at h3
  omega

theorem nodup_sub_length_le {v w : List Nat} (hnd : v.Nodup) (hsub : v ⊆ w) :
    v.length ≤ w.length := by
  classical
  have h1 : v.toFinset.card = v.length := List.toFinset_card_of_nodup hnd
  have h2 : v.toFinset ⊆ w.toFinset := by
    intro x hx; simp only [List.mem_toFinset] at hx ⊢; exact hsub hx
  have h3 := Finset.card_le_card h2
  have h4 := w.toFinset_card_le
  omega

/-- On success the visited set stays duplicate-free and bounded. -/
theorem checkRecF_inv (g : List GNode) (hg : gwf g) :
    ∀ fuel n v w, n < g.length → v.Nodup → (∀ x ∈ v, x < g.length) →
      checkRecF g fuel n v = some (.ok w) →
      w.Nodup ∧ ∀ x ∈ w, x < g.length := by
  intro fuel
  induction fuel with
  | zero => intro n v w _ _ _ h; exact absurd h (by simp [checkRecF])
  | succ fu ih =>
    intro n v w hn hvnd hvb h
    simp only [checkRecF, checkStep] at h
    by_cases hv : n ∈ v
    · simp [hv] at h
    · rw [if_neg hv] at h
      have hvnd2 : (n :: v).Nodup := List.nodup_cons.mpr ⟨hv, hvnd⟩
      have hvb2 : ∀ x ∈ n :: v, x < g.length := by
        intro x hx
        rcases List.mem_cons.mp hx with he | hl
        · exact he ▸ hn
        · exact hvb x hl
      have hkb := kids_bound hg hn
      have hgoal : ∀ cs, (∀ c ∈ cs, c < g.length) →
          ∀ w0, goKids (checkRecF g fu) cs (n :: v) = some (.ok w0) →
            w0.Nodup ∧ ∀ x ∈ w0, x < g.length := by
        intro cs
        induction cs with
        | nil =>
          intro _ w0 hgk
          simp only [goKids, Option.some.injEq, Except.ok.injEq] at hgk
          exact hgk ▸ ⟨hvnd2, hvb2⟩
        | cons c0 rest ihcs =>
          intro hcb w0 hgk
          simp only [goKids] at hgk
          cases hc0 : checkRecF g fu c0 (n :: v) with
          | none => rw [hc0] at hgk; exact absurd hgk (by simp)
          | some r =>
            cases r with
            | error m => rw [hc0] at hgk; exact absurd hgk (by simp)
            | ok w1 =>
              rw [hc0] at hgk
              have hw1 := ih c0 (n :: v) w1 (hcb c0 (by simp)) hvnd2 hvb2 hc0
              -- rerun the tail loop from w1; reuse the generic argument below
              clear ihcs
              revert hgk
              have : ∀ rest2 u w0, (∀ c ∈ rest2, c < g.length) → u.Nodup →
                  (∀ x ∈ u, x < g.length) →
                  goKids (checkRecF g fu) rest2 u = some (.ok w0) →
                  w0.Nodup ∧ ∀ x ∈ w0, x < g.length := by
                intro rest2
                induction rest2 with
                | nil =>
                  intro u w0 _ hund hub hgk
                  simp only [goKids, Option.some.injEq, Except.ok.injEq] at hgk
                  exact hgk ▸ ⟨hund, hub⟩
                | cons c1 rest3 ih3 =>
                  intro u w0 hcb2 hund hub hgk
                  simp only [goKids] at hgk
                  cases hc1 : checkRecF g fu c1 u with
                  | none => rw [hc1] at hgk; exact absurd hgk (by simp)
                  | some r =>
                    cases r with
                    | error m => rw [hc1] at hgk; exact absurd hgk (by simp)
                    | ok w2 =>
                      rw [hc1] at hgk
                      have hw2 := ih c1 u w2 (hcb2 c1 (by simp)) hund hub hc1
                      exact ih3 w2 w0 (fun c hc => hcb2 c (by simp [hc])) hw2.1 hw2.2 hgk
              intro hgk
              exact this rest w1 w0 (fun c hc => hcb c (by simp [hc])) hw1.1 hw1.2 hgk
      cases hnd : nodeAt g n with
      | leaf =>
        rw [hnd] at h
        simp only [] at h
        simp only [List.erase_cons_head, Option.some.injEq, Except.ok.injEq] at h
        exact h ▸ ⟨hvnd, hvb⟩
      | single c =>
        rw [hnd] at h
        simp only [] at h
        have hc : c < g.length := by
          have := hkb c; rw [hnd] at this; exact this (by simp [unwrapKids])
        exact ih c (n :: v) w hc hvnd2 hvb2 h
      | multi cs =>
        rw [hnd] at h
        simp only [] at h
        have hcb : ∀ c ∈ cs, c < g.length := by
          intro c hc
          have := hkb c; rw [hnd] at this; exact this (by simpa [unwrapKids] using hc)
        cases hgk : goKids (checkRecF g fu) cs (n :: v) with
        | none => rw [hgk] at h; simp [eraseRes] at h
        | some r =>
          cases r with
          | error m => rw [hgk] at h; simp [eraseRes] at h
          | ok w0 =>
            rw [hgk] at h
            simp only [eraseRes, Option.some.injEq, Except.ok.injEq] at h
            have hw0 := hgoal cs hcb w0 hgk
            refine h ▸ ⟨hw0.1.erase n, ?_⟩
            intro x hx
            exact hw0.2 x (List.mem_of_mem_erase hx)
      | resultNode m sc hs =>
        rw [hnd] at h
        simp only [] at h
        have hcb : ∀ c ∈ [m, sc], c < g.length := by
          intro c hc
          have := hkb c; rw [hnd] at this; exact this (by simpa [unwrapKids] using hc)
        cases hgk : goKids (checkRecF g fu) [m, sc] (n :: v) with
        | none => rw [hgk] at h; simp [eraseRes] at h
        | some r =>
          cases r with
          | error m2 => rw [hgk] at h; simp [eraseRes] at h
          | ok w0 =>
            rw [hgk] at h
            simp only [eraseRes, Option.some.injEq, Except.ok.injEq] at h
            have hw0 := hgoal [m, sc] hcb w0 hgk
            refine h ▸ ⟨hw0.1.erase n, ?_⟩
            intro x hx
            exact hw0.2 x (List.mem_of_mem_erase hx)

/-- Fuel adequacy: with `g.length + 1` levels available the checker never
runs out of fuel (each level strictly grows the duplicate-free, bounded
visited set). -/
theorem checkRecF_no_exhaust (g : List GNode) (hg : gwf g) :
    ∀ fuel n v, n < g.length → v.Nodup → (∀ x ∈ v, x < g.length) →
      g.length + 1 ≤ fuel + v.length →
      checkRecF g fuel n v ≠ none := by
  intro fuel
  induction fuel with
  | zero =>
    intro n v hn hvnd hvb hfuel
    have := nodup_length_le hvnd hvb
    omega
  | succ fu ih =>
    intro n v hn hvnd hvb hfuel
    simp only [checkRecF, checkStep]
    by_cases hv : n ∈ v
    · simp [hv]
    · rw [if_neg hv]
      have hvnd2 : (n :: v).Nodup := List.nodup_cons.mpr ⟨hv, hvnd⟩
      have hvb2 : ∀ x ∈ n :: v, x < g.length := by
        intro x hx
        rcases List.mem_cons.mp hx with he | hl
        · exact he ▸ hn
        · exact hvb x hl
      have hkb := kids_bound hg hn
      have hloop : ∀ cs, (∀ c ∈ cs, c < g.length) →
          ∀ u, u.Nodup → (∀ x ∈ u, x < g.length) →
          (n :: v).length ≤ u.length →
          goKids (checkRecF g fu) cs u ≠ none := by
        intro cs
        induction cs with
        | nil => intro _ u _ _ _; simp [goKids]
        | cons c0 rest ihcs =>
          intro hcb u hund hub hlen
          simp only [goKids]
          have hne : checkRecF g fu c0 u ≠ none := by
            apply ih c0 u (hcb c0 (by simp)) hund hub
            simp only [List.length_cons] at hlen
            omega
          cases hc0 : checkRecF g fu c0 u with
          | none => exact absurd hc0 hne
          | some r =>
            cases r with
            | error m => simp
            | ok w1 =>
              have hw1 := checkRecF_inv g hg fu c0 u w1 (hcb c0 (by simp)) hund hub hc0
              have hsub := checkRecF_sub g fu c0 u w1 hc0
              have hlen2 : (n :: v).length ≤ w1.length :=
                hlen.trans (nodup_sub_length_le hund hsub)
              exact ihcs (fun c hc => hcb c (by simp [hc])) w1 hw1.1 hw1.2 hlen2
      cases hnd : nodeAt g n with
      | leaf => simp
      | single c =>
        simp only []
        apply ih c (n :: v)
        · have := hkb c; rw [hnd] at this; exact this (by simp [unwrapKids])
        · exact hvnd2
        · exact hvb2
        · simp only [List.length_cons]; omega
      | multi cs =>
        simp only []
        have hcb : ∀ c ∈ cs, c < g.length := by
          intro c hc
          have := hkb c; rw [hnd] at this; exact this (by simpa [unwrapKids] using hc)
        have := hloop cs hcb (n :: v) hvnd2 hvb2 (le_refl _)
        cases hgk : goKids (checkRecF g fu) cs (n :: v) with
        | none => exact absurd hgk this
        | some r => cases r <;> simp [eraseRes]
      | resultNode m sc hs =>
        simp only []
        have hcb : ∀ c ∈ [m, sc], c < g.length := by
          intro c hc
          have := hkb c; rw [hnd] at this; exact this (by simpa [unwrapKids] using hc)
        have := hloop [m, sc] hcb (n :: v) hvnd2 hvb2 (le_refl _)
        cases hgk : goKids (checkRecF g fu) [m, sc] (n :: v) with
        | none => exact absurd hgk this
        | some r => cases r <;> simp [eraseRes]

/-- On a well-formed graph `New` always returns an answer: the fuelled
model is total, matching the Go code. -/
theorem newExec_total {g : List GNode} {root : Nat} (hg : gwf g)
    (hroot : root < g.length) : newExec g root ≠ none := by
  unfold newExec checkDAGCycles
  have h := checkRecF_no_exhaust g hg (g.length + 1) root []
    hroot (by simp) (by simp) (by simp)
  cases hc : checkRecF g (g.length + 1) root [] with
  | none => exact absurd hc h
  | some r => cases r <;> simp

/-- If a cycle (along Unwrap edges) is reachable from the root of a
well-formed graph, `New` reports a construction error wrapping a cycle
error that names some node. -/
theorem new_rejects_reachable_cycle {g : List GNode} {root n : Nat}
    {l l2 : List Nat} (hg : gwf g) (hroot : root < g.length)
    (hreach : Walk g root n l2) (hcyc : Walk g n n l) (hlen : 2 ≤ l.length) :
    ∃ m, newExec g root = some (.error ⟨⟨m⟩⟩) := by
  have hcomb : Walk g root n (l2.dropLast ++ l) := hreach.append hcyc
  have hne := newExec_total hg hroot
  unfold newExec checkDAGCycles at hne ⊢
  cases hc : checkRecF g (g.length + 1) root [] with
  | none => rw [hc] at hne; exact absurd rfl hne
  | some r =>
    cases r with
    | error m => exact ⟨m, rfl⟩
    | ok w =>
      have hsound := (checkRecF_sound hcomb (g.length + 1) [] w hc).1
      have hsl : l.Sublist (l2.dropLast ++ l) := List.sublist_append_right _ _
      exact absurd (hsound.sublist hsl) (hcyc.cycle_not_nodup hlen)

/-! ### The checker ignores failure-handler references -/

theorem nodeAt_map_erase (g : List GNode) (n : Nat) :
    nodeAt (g.map eraseHandlers) n = eraseHandlers (nodeAt g n) := by
  induction g generalizing n with
  | nil => simp [eraseHandlers]
  | cons x l ih =>
    cases n with
    | zero => simp
    | succ m => simpa using ih m

theorem checkRecF_erase (g : List GNode) :
    ∀ fuel, checkRecF (g.map eraseHandlers) fuel = checkRecF g fuel := by
  intro fuel
  induction fuel with
  | zero => rfl
  | succ fu ih =>
    funext n v
    simp only [checkRecF, checkStep, ih, nodeAt_map_erase]
    by_cases hv : n ∈ v
    · simp [hv]
    · simp only [if_neg hv]
      cases hnd : nodeAt g n <;> simp [eraseHandlers]

/-- Erasing every failure-handler reference does not change the outcome of
`New`: the validator never traverses them. -/
theorem newExec_erase (g : List GNode) (root : Nat) :
    newExec (g.map eraseHandlers) root = newExec g root := by
  unfold newExec checkDAGCycles
  rw [List.length_map, checkRecF_erase]

/-! ### Certifying concrete graphs acyclic

To certify that a concrete graph has no cycle we exhibit a reach-set
function `RS` closed under the Unwrap edges; every walk then stays inside
the reach set of its origin. -/

theorem walk_reach {g : List GNode} {RS : Nat → List Nat}
    (hself : ∀ a, a ∈ RS a)
    (hstep : ∀ a c, c ∈ unwrapKids (nodeAt g a) → ∀ x ∈ RS c, x ∈ RS a) :
    ∀ {a b : Nat} {l : List Nat}, Walk g a b l → b ∈ RS a := by
  intro a b l h
  induction h with
  | nil a => exact hself a
  | cons hab h ih => exact hstep _ _ hab _ ih

theorem no_cycle_at {g : List GNode} {RS : Nat → List Nat}
    (hself : ∀ a, a ∈ RS a)
    (hstep : ∀ a c, c ∈ unwrapKids (nodeAt g a) → ∀ x ∈ RS c, x ∈ RS a)
    {a : Nat} (hind : ∀ c ∈ unwrapKids (nodeAt g a), a ∉ RS c) :
    ∀ l, ¬(Walk g a a l ∧ 2 ≤ l.length) := by
  rintro l ⟨hw, hlen⟩
  cases hw with
  | nil => simp at hlen
  | cons hab h => exact hind _ hab (walk_reach hself hstep h)

/-! ### Concrete graphs -/

/-- The diamond: `Series(sharedIf, sharedIf)` where both entries are the
same `If(cond, leaf)` instance.  Node 0 is the series, node 1 the shared
`ifStep`, node 2 its leaf.  An acyclic DAG. -/
def gDiamond : List GNode := [.multi [1, 1], .single 2, .leaf]

def rsDiamond (a : Nat) : List Nat :=
  if a = 0 then [0, 1, 2] else if a = 1 then [1, 2] else [a]

theorem rsDiamond_self : ∀ a, a ∈ rsDiamond a := by
  intro a
  unfold rsDiamond
  split_ifs with h1 h2
  · simp [h1]
  · simp [h2]
  · simp

theorem rsDiamond_step :
    ∀ a c, c ∈ unwrapKids (nodeAt gDiamond a) → ∀ x ∈ rsDiamond c, x ∈ rsDiamond a := by
  intro a c hc x hx
  rcases a with _ | _ | _ | a
  · simp [gDiamond, unwrapKids] at hc
    subst hc
    simp [rsDiamond] at hx ⊢
    omega
  · simp [gDiamond, unwrapKids] at hc
    subst hc
    simp [rsDiamond] at hx ⊢
    omega
  · simp [gDiamond, unwrapKids] at hc
  · simp [gDiamond, unwrapKids] at hc

theorem gDiamond_acyclic : ∀ n l, ¬(Walk gDiamond n n l ∧ 2 ≤ l.length) := by
  intro n
  apply no_cycle_at rsDiamond_self rsDiamond_step
  intro c hc
  rcases n with _ | _ | _ | n
  · simp [gDiamond, unwrapKids] at hc
    subst hc
    simp [rsDiamond]
  · simp [gDiamond, unwrapKids] at hc
    subst hc
    simp [rsDiamond]
  · simp [gDiamond, unwrapKids] at hc
  · simp [gDiamond, unwrapKids] at hc

/-- The graph of the C4 counterexample: node 0 a series over the shared
`ifStep` 1 (taken twice) and node 2; node 2 is an `ifStep` whose child is
itself — the unique node reachable from itself. -/
def gNami : List GNode := [.multi [1, 1, 2], .single 3, .single 2, .leaf]

def rsNami (a : Nat) : List Nat :=
  if a = 0 then [0, 1, 2, 3] else if a = 1 then [1, 3] else [a]

theorem rsNami_self : ∀ a, a ∈ rsNami a := by
  intro a
  unfold rsNami
  split_ifs with h1 h2
  · simp [h1]
  · simp [h2]
  · simp

theorem rsNami_step :
    ∀ a c, c ∈ unwrapKids (nodeAt gNami a) → ∀ x ∈ rsNami c, x ∈ rsNami a := by
  intro a c hc x hx
  rcases a with _ | _ | _ | _ | a
  · simp [gNami, unwrapKids] at hc
    rcases hc with hc | hc <;> subst hc <;> simp [rsNami] at hx ⊢ <;> omega
  · simp [gNami, unwrapKids] at hc
    subst hc
    simp [rsNami] at hx ⊢
    omega
  · simp [gNami, unwrapKids] at hc
    subst hc
    simpa [rsNami] using hx
  · simp [gNami, unwrapKids] at hc
  · simp [gNami, unwrapKids] at hc

theorem gNami_no_cycle_at_one : ∀ l, ¬(Walk gNami 1 1 l ∧ 2 ≤ l.length) := by
  apply no_cycle_at rsNami_self rsNami_step
  intro c hc
  simp [gNami, unwrapKids] at hc
  subst hc
  simp [rsNami]

/-- The graph of the C10 counterexample: the only back-edge goes through
node 2's failure handler (which references the root), but the diamond on
the shared `ifStep` 1 makes `New` fail anyway. -/
def gHandler : List GNode :=
  [.multi [1, 1, 2], .single 3, .resultNode 4 5 [0], .leaf, .leaf, .leaf]

def rsHandler (a : Nat) : List Nat :=
  if a = 0 then [0, 1, 2, 3, 4, 5]
  else if a = 1 then [1, 3] else if a = 2 then [2, 4, 5] else [a]

theorem rsHandler_self : ∀ a, a ∈ rsHandler a := by
  intro a
  unfold rsHandler
  split_ifs with h1 h2 h3
  · simp [h1]
  · simp [h2]
  · simp [h3]
  · simp

theorem rsHandler_step :
    ∀ a c, c ∈ unwrapKids (nodeAt gHandler a) → ∀ x ∈ rsHandler c, x ∈ rsHandler a := by
  intro a c hc x hx
  rcases a with _ | _ | _ | _ | _ | _ | a
  · simp [gHandler, unwrapKids] at hc
    rcases hc with hc | hc <;> subst hc <;> simp [rsHandler] at hx ⊢ <;> omega
  · simp [gHandler, unwrapKids] at hc
    subst hc
    simp [rsHandler] at hx ⊢
    omega
  · simp [gHandler, unwrapKids] at hc
    rcases hc with hc | hc <;> subst hc <;> simp [rsHandler] at hx ⊢ <;> omega
  · simp [gHandler, unwrapKids] at hc
  · simp [gHandler, unwrapKids] at hc
  · simp [gHandler, unwrapKids] at hc
  · simp [gHandler, unwrapKids] at hc

theorem gHandler_acyclic : ∀ n l, ¬(Walk gHandler n n l ∧ 2 ≤ l.length) := by
  intro n
  apply no_cycle_at rsHandler_self rsHandler_step
  intro c hc
  rcases n with _ | _ | _ | _ | _ | _ | n
  · simp [gHandler, unwrapKids] at hc
    rcases hc with hc | hc <;> subst hc <;> simp [rsHandler]
  · simp [gHandler, unwrapKids] at hc
    subst hc
    simp [rsHandler]
  · simp [gHandler, unwrapKids] at hc
    rcases hc with hc | hc <;> subst hc <;> simp [rsHandler]
  · simp [gHandler, unwrapKids] at hc
  · simp [gHandler, unwrapKids] at hc
  · simp [gHandler, unwrapKids] at hc
  · simp [gHandler, unwrapKids] at hc

/-- A result node whose failure handler points back at the node itself:
the only back-edge is through the handler; `New` accepts it. -/
def gPure : List GNode := [.resultNode 1 2 [0], .leaf, .leaf]

def rsPure (a : Nat) : List Nat := if a = 0 then [0, 1, 2] else [a]

theorem rsPure_self : ∀ a, a ∈ rsPure a := by
  intro a
  unfold rsPure
  split_ifs with h1
  · simp [h1]
  · simp

theorem rsPure_step :
    ∀ a c, c ∈ unwrapKids (nodeAt gPure a) → ∀ x ∈ rsPure c, x ∈ rsPure a := by
  intro a c hc x hx
  rcases a with _ | _ | _ | a
  · simp [gPure, unwrapKids] at hc
    rcases hc with hc | hc <;> subst hc <;> simp [rsPure] at hx ⊢ <;> omega
  · simp [gPure, unwrapKids] at hc
  · simp [gPure, unwrapKids] at hc
  · simp [gPure, unwrapKids] at hc

theorem gPure_acyclic : ∀ n l, ¬(Walk gPure n n l ∧ 2 ≤ l.length) := by
  intro n
  apply no_cycle_at rsPure_self rsPure_step
  intro c hc
  rcases n with _ | _ | _ | n
  · simp [gPure, unwrapKids] at hc
    rcases hc with hc | hc <;> subst hc <;> simp [rsPure]
  · simp [gPure, unwrapKids] at hc
  · simp [gPure, unwrapKids] at hc
  · simp [gPure, unwrapKids] at hc

/-! ### Claim theorems for the cycle validator -/

/-- C1: the claim states that every composite graph with no back-edge
reachable from the root is accepted by `New`, in particular a diamond
reusing one node instance from two branches.  The code violates this:
`gDiamond` (the same `ifStep` instance reached from two positions of a
series, a cycle-free DAG, as the first conjunct certifies) is rejected
with a construction error wrapping a cycle error that names the shared
`ifStep`, because the single-child branch of `checkDAGRecursive` returns
without removing its node from the active path. -/
theorem c1_diamond_falsely_rejected :
    (∀ n l, ¬(Walk gDiamond n n l ∧ 2 ≤ l.length)) ∧
    gwf gDiamond ∧
    newExec gDiamond 0 = some (.error ⟨⟨1⟩⟩) :=
  ⟨gDiamond_acyclic, by decide, rfl⟩

/-- C4 as stated is too strong: on `gNami` the unique node reachable from
itself is node 2 (conjuncts 1 and 2), yet the cycle error emitted by `New`
names node 1 (conjunct 3), which is not reachable from itself
(conjunct 4). -/
theorem c4_names_wrong_node :
    Walk gNami 0 2 [0, 2] ∧ Walk gNami 2 2 [2, 2] ∧
    newExec gNami 0 = some (.error ⟨⟨1⟩⟩) ∧
    (∀ l, ¬(Walk gNami 1 1 l ∧ 2 ≤ l.length)) ∧
    (1 : Nat) ≠ 2 := by
  refine ⟨?_, ?_, rfl, gNami_no_cycle_at_one, by decide⟩
  · exact Walk.cons (by decide) (Walk.nil 2)
  · exact Walk.cons (by decide) (Walk.nil 2)

/-- C4, amended: whenever some node reachable from the declared root is
reachable from itself along the children (Unwrap) structure, `New` fails,
returning a construction error wrapping a cycle error naming some node
(the first node encountered whose identity is already on the recorded
path, which need not be the self-reachable node), and no executor is
produced. -/
theorem c4_cycle_always_rejected {g : List GNode} {root n : Nat}
    {l l2 : List Nat} (hg : gwf g) (hroot : root < g.length)
    (hreach : Walk g root n l2) (hcyc : Walk g n n l) (hlen : 2 ≤ l.length) :
    ∃ m, newExec g root = some (.error ⟨⟨m⟩⟩) :=
  new_rejects_reachable_cycle hg hroot hreach hcyc hlen

/-- Witness for `c4_cycle_always_rejected` at the one-node graph whose
single `ifStep` is its own child. -/
theorem c4_cycle_always_rejected_witness :
    ∃ m, newExec [GNode.single 0] 0 = some (.error ⟨⟨m⟩⟩) :=
  c4_cycle_always_rejected (g := [GNode.single 0]) (by decide) (by decide)
    (Walk.nil 0) (Walk.cons (by decide) (Walk.nil 0)) (by decide)

/-- C10 as stated is too strong: `gHandler` has no back-edge along the
Unwrap structure (conjunct 1); its only back-edge runs through the failure
handler of the result node 2 (conjuncts 2 and 3); the claim then promises
that `New` succeeds, but it fails (conjunct 4), because the graph also
contains a diamond on a single-child node, which the validator falsely
flags (the C1 bug). -/
theorem c10_counterexample :
    (∀ n l, ¬(Walk gHandler n n l ∧ 2 ≤ l.length)) ∧
    WalkF gHandler 0 0 [0, 2, 0] ∧
    (0 : Nat) ∈ handlerRefs (nodeAt gHandler 2) ∧
    newExec gHandler 0 = some (.error ⟨⟨1⟩⟩) := by
  refine ⟨gHandler_acyclic, ?_, by decide, rfl⟩
  exact WalkF.cons (by decide) (WalkF.cons (by decide) (WalkF.nil 0))

/-- C10, amended: cycle validation never traverses a Result node's failure
handler — `New`'s verdict on any graph equals its verdict on the graph
with every failure-handler reference erased; in particular a graph whose
only back-edge passes through a failure handler (here a result node whose
handler references the node itself) is accepted whenever its
handler-erased Unwrap structure is accepted. -/
theorem c10_handler_never_traversed :
    (∀ (g : List GNode) (root : Nat),
        newExec (g.map eraseHandlers) root = newExec g root) ∧
    WalkF gPure 0 0 [0, 0] ∧
    (∀ n l, ¬(Walk gPure n n l ∧ 2 ≤ l.length)) ∧
    newExec gPure 0 = some (.ok ()) := by
  refine ⟨newExec_erase, ?_, gPure_acyclic, rfl⟩
  exact WalkF.cons (by decide) (WalkF.nil 0)

/-! ### The execution model

An inductive `Step` tree over a caller state type `S`, with an event trace
as the observation apparatus: leaves record that they ran, error-aware
leaves record the error they observed, and the log middleware records
before/after interception, mirroring the library's test middleware.
-/

/-- Execution errors.  `base` stands for an arbitrary leaf error object
(identity by number); `wrapped` models `fmt.Errorf("...%s...: %w", name,
err)` carrying the failing child's display identifier; `joinedOne` and
`joinedPair` model the two shapes `errors.Join` produces in
`continueStep.Exec`, which only ever calls `Join(acc, new)` with `acc`
possibly nil and `new` non-nil: `Join(nil, e)` yields a join of one error
and `Join(acc, e)` a join of two. -/
inductive Err where
  | base (k : Nat)
  | wrapped (msg : String) (inner : Err)
  | joinedOne (e : Err)
  | joinedPair (a b : Err)
deriving DecidableEq, Repr

/-- Go's `errors.Is(e, t)`: equality, else unwrap (`%w` wrapping unwraps
to the inner error; joins unwrap to their members). -/
def Err.isa (e t : Err) : Bool :=
  if e = t then true
  else
    match e with
    | .wrapped _ inner => inner.isa t
    | .joinedOne x => x.isa t
    | .joinedPair a b => a.isa t || b.isa t
    | .base _ => false

@[simp] theorem Err.isa_refl (e : Err) : e.isa e = true := by
  unfold Err.isa
  simp

theorem Err.isa_wrapped (msg : String) (e t : Err) (h : e.isa t = true) :
    (Err.wrapped msg e).isa t = true := by
  unfold Err.isa
  split <;> simp [h]

theorem Err.isa_joinedOne (e t : Err) (h : e.isa t = true) :
    (Err.joinedOne e).isa t = true := by
  unfold Err.isa
  split <;> simp [h]

theorem Err.isa_joinedPair_left (a b t : Err) (h : a.isa t = true) :
    (Err.joinedPair a b).isa t = true := by
  unfold Err.isa
  split <;> simp [h]

theorem Err.isa_joinedPair_right (a b t : Err) (h : b.isa t = true) :
    (Err.joinedPair a b).isa t = true := by
  unfold Err.isa
  split <;> simp [h]

/-- The accumulation step of `continueStep.Exec`:
`err = errors.Join(err, newErr)` with `newErr` non-nil. -/
def errJoinAcc : Option Err → Err → Err
  | none, e => .joinedOne e
  | some acc, e => .joinedPair acc e

/-- Middleware `Info` (middleware.go): display name and the can-skip
flag. -/
structure Info where
  name : String
  canSkip : Bool
deriving DecidableEq, Repr

/-- A middleware.  The model's middleware family is the observing (log)
interceptor of the library's own tests: it wraps the next step, emits a
start event, runs it, then emits a done event, and passes the outcome
through. -/
inductive Mw where
  | log (tag : String)
deriving DecidableEq, Repr

/-- The execution context: the two context values the library stores
(`middlewareKey` holding the chain, `resultErrKey` holding the most recent
branching error).  `context.WithValue` for a key overwrites that key for
the derived context, i.e. a functional record update. -/
structure Ctx where
  chain : List Mw
  resErr : Option Err
deriving Repr

/-- Observable events of one execution. -/
inductive Event where
  | ran (name : String)
  | obs (name : String) (e : Option Err)
  | start (tag : String) (name : String)
  | done (tag : String) (name : String)
deriving DecidableEq, Repr

mutual
/-- A step (step.go / result_step.go).  Constructors mirror the concrete
Go types: `stepFunc` is `StepFunc` (a leaf closure over the state),
`stepWithErr` the error-aware leaf, `stepWithErrInner` the plain
`StepFunc` that `stepWithErr.Exec` builds from its own `exec` method
before self-wrapping, `ifStep`/`ifElseStep`/`seriesStep`/`continueStep`/
`resultStep` the composites, and `traced` the wrapper step produced by
applying a log middleware.  Leaves carry their display name (the naming
subsystem is the out-of-scope collaborator).  The leaf closure returns
the optional error; the event trace records that it ran. -/
inductive Step (S : Type) where
  | stepFunc (name : String) (f : S → Option Err)
  | stepWithErrInner (name : String) (f : Option Err → S → Option Err)
  | stepWithErr (name : String) (f : Option Err → S → Option Err)
  | ifStep (condition : S → Bool) (thenStep : Step S)
  | ifElseStep (condition : S → Bool) (thenStep elseStep : Step S)
  | seriesStep (steps : List (Step S))
  | continueStep (steps : List (Step S))
  | resultStep (mainStep successStep : Step S) (failureHandler : Handler S)
  | traced (tag : String) (info : Info) (inner : Step S)

/-- A `ResultFailureHandler` value: `hnone` is the nil interface,
`ofStep` a `StepFunc` used directly as handler (its `selectStep` returns
itself), `fb` a failure branch used directly, and `multi` the
`multiFailureHandler` built by `HandleMultiFailure` (whose branch list
consists of converted `failureBranch`/`defaultBranch` values). -/
inductive Handler (S : Type) where
  | hnone
  | ofStep (s : Step S)
  | fb (b : FB S)
  | multi (bs : List (FB S))

/-- A `FailureBranch`: `branch` is `NewBranch`'s `failureBranch`
(selector plus step), `dflt` is `DefaultBranch`'s `defaultBranch`. -/
inductive FB (S : Type) where
  | branch (sel : Ctx → Err → Bool) (s : Step S)
  | dflt (s : Step S)
end

variable {S : Type}

/-- The display name of a step (`StepName`).  The naming subsystem is out
of scope; leaves carry an explicit name and composites get their Go type
name. -/
def stepName : Step S → String
  | .stepFunc nm _ => nm
  | .stepWithErrInner nm _ => nm
  | .stepWithErr nm _ => nm
  | .ifStep _ _ => "ifStep"
  | .ifElseStep _ _ _ => "ifElseStep"
  | .seriesStep _ => "seriesStep"
  | .continueStep _ => "continueStep"
  | .resultStep _ _ _ => "resultStep"
  | .traced _ _ _ => "tracedStep"

/-- Go's `canSkip` (middleware.go): the five composite types implement
`middlewareSkipper` returning true; every other step does not implement
it. -/
def canSkipF : Step S → Bool
  | .ifStep _ _ => true
  | .ifElseStep _ _ _ => true
  | .seriesStep _ => true
  | .continueStep _ => true
  | .resultStep _ _ _ => true
  | _ => false

/-- Go's `stepInfo` (middleware.go). -/
def stepInfo (s : Step S) : Info := ⟨stepName s, canSkipF s⟩

/-- Apply one middleware to a step (`MiddlewareFunc` application). -/
def applyMw (mw : Mw) (next : Step S) (info : Info) : Step S :=
  match mw with
  | .log tag => .traced tag info next

/-- Go's `MiddlewareChain.apply`: the Go loop runs `i` from the end of the
chain down to 0, rebinding `next`; the last-registered middleware is
applied first and the first-registered ends up outermost. -/
def applyChain (mwc : List Mw) (next : Step S) (info : Info) : Step S :=
  match mwc with
  | [] => next
  | mw :: rest => applyMw mw (applyChain rest next info) info

/-- Go's `MiddlewareChain.Wrap`. -/
def chainWrap (mwc : List Mw) (s : Step S) : Step S :=
  applyChain mwc s (stepInfo s)

mutual
/-- Termination measure for execution: the number of proper (non-traced)
constructors; `traced` wrappers are transparent so that wrapping with a
middleware chain never changes it. -/
def Step.tsize : Step S → Nat
  | .stepFunc _ _ => 1
  | .stepWithErrInner _ _ => 1
  | .stepWithErr _ _ => 2
  | .ifStep _ t => 1 + t.tsize
  | .ifElseStep _ t e => 1 + t.tsize + e.tsize
  | .seriesStep ss => 1 + sizeL ss
  | .continueStep ss => 1 + sizeL ss
  | .resultStep m sc h => 1 + m.tsize + sc.tsize + h.hsize
  | .traced _ _ s => s.tsize

def sizeL : List (Step S) → Nat
  | [] => 0
  | s :: rest => 1 + s.tsize + sizeL rest

def Handler.hsize : Handler S → Nat
  | .hnone => 0
  | .ofStep s => 1 + s.tsize
  | .fb b => 1 + b.fbSize
  | .multi bs => 1 + fbSizeL bs

def FB.fbSize : FB S → Nat
  | .branch _ s => 1 + s.tsize
  | .dflt s => 1 + s.tsize

def fbSizeL : List (FB S) → Nat
  | [] => 0
  | b :: rest => b.fbSize + fbSizeL rest
end

/-- The count of traced wrappers at the head of a step. -/
def wrapC : Step S → Nat
  | .traced _ _ s => wrapC s + 1
  | _ => 0

theorem tsize_applyMw (mw : Mw) (s : Step S) (i : Info) :
    (applyMw mw s i).tsize = s.tsize := by
  cases mw with
  | log tag => simp [applyMw, Step.tsize]

theorem tsize_applyChain (mwc : List Mw) (s : Step S) (i : Info) :
    (applyChain mwc s i).tsize = s.tsize := by
  induction mwc with
  | nil => rfl
  | cons mw rest ih => simp [applyChain, tsize_applyMw, ih]

/-- Go's `failureBranch.selectStep` / `defaultBranch.selectStep`
(result_step.go): the selector branch selects its step when its selector
matches; a default branch always selects its step. -/
def FB.select : FB S → Ctx → Err → Option (Step S)
  | .branch sel s, ctx, e => if sel ctx e then some s else none
  | .dflt s, _, _ => some s

/-- The loop of `multiFailureHandler.selectStep`: first non-nil selection
wins. -/
def selectMulti : List (FB S) → Ctx → Err → Option (Step S)
  | [], _, _ => none
  | b :: rest, ctx, e =>
    match b.select ctx e with
    | some s => some s
    | none => selectMulti rest ctx e

/-- Go's `ResultFailureHandler.selectStep` for each implementation; the nil
interface selects nothing (`resultStep.handleErr` checks for nil before
calling `selectStep`, and both routes return the main error, so this is
observationally identical). -/
def Handler.select : Handler S → Ctx → Err → Option (Step S)
  | .hnone, _, _ => none
  | .ofStep s, _, _ => some s
  | .fb b, ctx, e => b.select ctx e
  | .multi bs, ctx, e => selectMulti bs ctx e

/-- Go constructor functions (step.go / result_step.go). -/
def If (condition : S → Bool) (thenStep : Step S) : Step S :=
  .ifStep condition thenStep

def IfNot (condition : S → Bool) (thenStep : Step S) : Step S :=
  .ifStep (fun st => !(condition st)) thenStep

def IfElse (condition : S → Bool) (thenStep elseStep : Step S) : Step S :=
  .ifElseStep condition thenStep elseStep

def Series (steps : List (Step S)) : Step S := .seriesStep steps

def Continue (steps : List (Step S)) : Step S := .continueStep steps

def Result (mainStep successStep : Step S) (failureHandler : Handler S) :
    Step S := .resultStep mainStep successStep failureHandler

def NewBranch (sel : Ctx → Err → Bool) (s : Step S) : FB S := .branch sel s

def DefaultBranch (s : Step S) : FB S := .dflt s

/-- Go's `HandleMultiFailure`: collects the sealed branch values into a
`multiFailureHandler`, preserving order. -/
def HandleMultiFailure (bs : List (FB S)) : Handler S := .multi bs

theorem FB.select_fbSize {b : FB S} {ctx : Ctx} {e : Err} {s : Step S}
    (h : b.select ctx e = some s) : s.tsize < b.fbSize := by
  cases b with
  | branch sel s0 =>
    simp only [FB.select] at h
    split at h
    · simp only [Option.some.injEq] at h
      subst h
      simp [FB.fbSize]
    · exact absurd h (by simp)
  | dflt s0 =>
    simp only [FB.select, Option.some.injEq] at h
    subst h
    simp [FB.fbSize]

theorem selectMulti_fbSizeL {bs : List (FB S)} {ctx : Ctx} {e : Err}
    {s : Step S} (h : selectMulti bs ctx e = some s) : s.tsize < 1 + fbSizeL bs := by
  induction bs with
  | nil => simp [selectMulti] at h
  | cons b rest ih =>
    simp only [selectMulti] at h
    cases hb : b.select ctx e with
    | some s0 =>
      rw [hb] at h
      simp only [Option.some.injEq] at h
      subst h
      have := FB.select_fbSize hb
      simp only [fbSizeL]
      omega
    | none =>
      rw [hb] at h
      have := ih h
      have hpos : 1 ≤ b.fbSize := by cases b <;> simp [FB.fbSize]
      simp only [fbSizeL]
      omega

theorem Handler.select_hsize {h : Handler S} {ctx : Ctx} {e : Err}
    {s : Step S} (hs : h.select ctx e = some s) : s.tsize < h.hsize := by
  cases h with
  | hnone => simp [Handler.select] at hs
  | ofStep s0 =>
    simp only [Handler.select, Option.some.injEq] at hs
    subst hs
    simp [Handler.hsize]
  | fb b =>
    simp only [Handler.select] at hs
    have := FB.select_fbSize hs
    simp only [Handler.hsize]
    omega
  | multi bs =>
    simp only [Handler.select] at hs
    have := selectMulti_fbSizeL hs
    simp only [Handler.hsize]
    omega

/-- Prefix a result with the events accumulated so far. -/
def prependEv (ev : List Event) (r : Option Err × List Event) :
    Option Err × List Event := (r.1, ev ++ r.2)

/-- The event bracketing performed by the step a log middleware returns. -/
def tracedWrap (tag nmE : String) (r : Option Err × List Event) :
    Option Err × List Event :=
  (r.1, .start tag nmE :: (r.2 ++ [.done tag nmE]))

/-- The selection part of `resultStep.handleErr` (result_step.go:73-83):
a nil handler selects nothing; otherwise ask the handler's `selectStep`. -/
def resultSelect (ctx : Ctx) (h : Handler S) (e : Err) : Option (Step S) :=
  match h with
  | .hnone => none
  | hh => Handler.select hh ctx e

theorem resultSelect_hsize {ctx : Ctx} {h : Handler S} {e : Err}
    {sel : Step S} (hs : resultSelect ctx h e = some sel) :
    sel.tsize < h.hsize := by
  cases h with
  | hnone => simp [resultSelect] at hs
  | ofStep s0 => exact Handler.select_hsize (by simpa [resultSelect] using hs)
  | fb b => exact Handler.select_hsize (by simpa [resultSelect] using hs)
  | multi bs => exact Handler.select_hsize (by simpa [resultSelect] using hs)

mutual
/-- Execution of a step (`Step.Exec` of each Go type), producing the
outcome and the observable event trace.

* `stepFunc`: runs the leaf closure (step.go:20).
* `stepWithErrInner`: the closure built by `stepWithErr.Exec`; reads the
  result error from the context and passes it to its function
  (result_step.go:33-35).
* `stepWithErr`: wraps its inner closure with the chain from the context,
  forcing `CanSkip` to true (result_step.go:20-31).
* `ifStep`/`ifElseStep`/`seriesStep`/`continueStep`/`resultStep`: the
  composite semantics; every child is executed through `execWithContext`,
  i.e. wrapped with the chain carried by the context (dag.go:55-64); the
  body inlines that wrapping, and `execWithContext` below coincides
  definitionally.
* `resultStep`: run main; on success run the success step; on failure run
  `handleErr`: nil handler or empty selection returns the main error
  unchanged, a selected step runs with the main error attached to the
  derived context and its outcome becomes the overall outcome.
* `traced`: the step a log middleware returns — emit start, run the
  wrapped step, emit done, pass the outcome through. -/
def exec (ctx : Ctx) (s : Step S) (st : S) : Option Err × List Event :=
  match s with
  | .stepFunc nm f => (f st, [.ran nm])
  | .stepWithErrInner nm f => (f ctx.resErr st, [.obs nm ctx.resErr])
  | .stepWithErr nm f =>
      exec ctx (applyChain ctx.chain (.stepWithErrInner nm f) ⟨nm, true⟩) st
  | .ifStep cond thn =>
      if cond st then exec ctx (applyChain ctx.chain thn (stepInfo thn)) st
      else (none, [])
  | .ifElseStep cond thn els =>
      if cond st then exec ctx (applyChain ctx.chain thn (stepInfo thn)) st
      else exec ctx (applyChain ctx.chain els (stepInfo els)) st
  | .seriesStep ss => execSeries ctx ss st
  | .continueStep ss => execCont ctx ss st none []
  | .resultStep m sc h =>
      match exec ctx (applyChain ctx.chain m (stepInfo m)) st with
      | (none, ev) =>
          prependEv ev (exec ctx (applyChain ctx.chain sc (stepInfo sc)) st)
      | (some e, ev) =>
          match hsel : resultSelect ctx h e with
          | none => (some e, ev)
          | some sel =>
              prependEv ev (exec ⟨ctx.chain, some e⟩
                (applyChain ctx.chain sel (stepInfo sel)) st)
  | .traced tag i inner => tracedWrap tag i.name (exec ctx inner st)
termination_by (s.tsize, wrapC s)
decreasing_by
  all_goals try simp only [tsize_applyChain, Step.tsize, wrapC, sizeL]
  all_goals first
    | exact Prod.Lex.left _ _ (by omega)
    | exact Prod.Lex.right _ (by omega)
    | exact Prod.Lex.left _ _ (by
        have hx := resultSelect_hsize (S := S) (by assumption)
        omega)

/-- The loop of `seriesStep.Exec` (step.go:98-106): run children in
order through `execWithContext`, stop at the first error. -/
def execSeries (ctx : Ctx) (ss : List (Step S)) (st : S) :
    Option Err × List Event :=
  match ss with
  | [] => (none, [])
  | c :: rest =>
    match exec ctx (applyChain ctx.chain c (stepInfo c)) st with
    | (some e, ev) => (some e, ev)
    | (none, ev) => prependEv ev (execSeries ctx rest st)
termination_by (sizeL ss, 0)
decreasing_by
  all_goals try simp only [tsize_applyChain, Step.tsize, wrapC, sizeL]
  all_goals first
    | exact Prod.Lex.left _ _ (by omega)
    | exact Prod.Lex.right _ (by omega)

/-- The loop of `continueStep.Exec` (step.go:127-137): run every child
through `execWithContext`; on failure join
`fmt.Errorf("error executing step %s: %w", StepName(step), stepErr)` into
the accumulator and keep going. -/
def execCont (ctx : Ctx) (ss : List (Step S)) (st : S)
    (acc : Option Err) (evAcc : List Event) : Option Err × List Event :=
  match ss with
  | [] => (acc, evAcc)
  | c :: rest =>
    match exec ctx (applyChain ctx.chain c (stepInfo c)) st with
    | (none, ev) => execCont ctx rest st acc (evAcc ++ ev)
    | (some e, ev) =>
        execCont ctx rest st
          (some (errJoinAcc acc (.wrapped (stepName c) e))) (evAcc ++ ev)
termination_by (sizeL ss, 0)
decreasing_by
  all_goals try simp only [tsize_applyChain, Step.tsize, wrapC, sizeL]
  all_goals first
    | exact Prod.Lex.left _ _ (by omega)
    | exact Prod.Lex.right _ (by omega)
end

/-- Go's `execWithContext` (dag.go:55-64): wrap the step with the chain stored
in the context (under its own step info), then execute it. -/
def execWithContext (ctx : Ctx) (step : Step S) (st : S) :
    Option Err × List Event :=
  exec ctx (applyChain ctx.chain step (stepInfo step)) st

/-- Go's `Executor.Exec` (dag.go:37-41): wrap the root with the registered
chain and run it with the chain attached to the context (and no result
error present). -/
def execRoot (mws : List Mw) (s : Step S) (st : S) : Option Err × List Event :=
  exec ⟨mws, none⟩ (applyChain mws s (stepInfo s)) st

theorem exec_stepFunc (ctx : Ctx) (nm : String) (f : S → Option Err) (st : S) :
    exec ctx (.stepFunc nm f) st = (f st, [.ran nm]) := by
  simp [exec]

theorem exec_stepWithErrInner (ctx : Ctx) (nm : String)
    (f : Option Err → S → Option Err) (st : S) :
    exec ctx (.stepWithErrInner nm f) st =
      (f ctx.resErr st, [.obs nm ctx.resErr]) := by
  simp [exec]

theorem exec_stepWithErr (ctx : Ctx) (nm : String)
    (f : Option Err → S → Option Err) (st : S) :
    exec ctx (.stepWithErr nm f) st =
      exec ctx (applyChain ctx.chain (.stepWithErrInner nm f) ⟨nm, true⟩) st := by
  rw [exec]

theorem exec_ifStep (ctx : Ctx) (cond : S → Bool) (thn : Step S) (st : S) :
    exec ctx (.ifStep cond thn) st =
      if cond st then execWithContext ctx thn st else (none, []) := by
  rw [exec, execWithContext]

theorem exec_ifElseStep (ctx : Ctx) (cond : S → Bool) (thn els : Step S)
    (st : S) :
    exec ctx (.ifElseStep cond thn els) st =
      if cond st then execWithContext ctx thn st
      else execWithContext ctx els st := by
  rw [exec, execWithContext, execWithContext]

theorem exec_seriesStep (ctx : Ctx) (ss : List (Step S)) (st : S) :
    exec ctx (.seriesStep ss) st = execSeries ctx ss st := by
  rw [exec]

theorem exec_continueStep (ctx : Ctx) (ss : List (Step S)) (st : S) :
    exec ctx (.continueStep ss) st = execCont ctx ss st none [] := by
  rw [exec]

theorem exec_traced (ctx : Ctx) (tag : String) (i : Info) (inner : Step S)
    (st : S) :
    exec ctx (.traced tag i inner) st =
      tracedWrap tag i.name (exec ctx inner st) := by
  rw [exec]

theorem exec_resultStep_success (ctx : Ctx) (m sc : Step S) (h : Handler S)
    (st : S) {ev : List Event}
    (hm : execWithContext ctx m st = (none, ev)) :
    exec ctx (.resultStep m sc h) st =
      prependEv ev (execWithContext ctx sc st) := by
  rw [execWithContext] at hm
  rw [exec, hm, execWithContext]

theorem exec_resultStep_unhandled (ctx : Ctx) (m sc : Step S) (h : Handler S)
    (st : S) {e : Err} {ev : List Event}
    (hm : execWithContext ctx m st = (some e, ev))
    (hs : resultSelect ctx h e = none) :
    exec ctx (.resultStep m sc h) st = (some e, ev) := by
  rw [execWithContext] at hm
  rw [exec, hm]
  simp only []
  rw [hs]

theorem exec_resultStep_handled (ctx : Ctx) (m sc : Step S) (h : Handler S)
    (st : S) {e : Err} {ev : List Event} {sel : Step S}
    (hm : execWithContext ctx m st = (some e, ev))
    (hs : resultSelect ctx h e = some sel) :
    exec ctx (.resultStep m sc h) st =
      prependEv ev (execWithContext ⟨ctx.chain, some e⟩ sel st) := by
  rw [execWithContext] at hm
  rw [exec, hm]
  simp only []
  rw [hs, execWithContext]

theorem execSeries_nil (ctx : Ctx) (st : S) :
    execSeries ctx ([] : List (Step S)) st = (none, []) := by
  rw [execSeries]

theorem execSeries_cons_err (ctx : Ctx) (c : Step S) (rest : List (Step S))
    (st : S) {e : Err} {ev : List Event}
    (hc : execWithContext ctx c st = (some e, ev)) :
    execSeries ctx (c :: rest) st = (some e, ev) := by
  rw [execWithContext] at hc
  rw [execSeries, hc]

theorem execSeries_cons_ok (ctx : Ctx) (c : Step S) (rest : List (Step S))
    (st : S) {ev : List Event}
    (hc : execWithContext ctx c st = (none, ev)) :
    execSeries ctx (c :: rest) st = prependEv ev (execSeries ctx rest st) := by
  rw [execWithContext] at hc
  rw [execSeries, hc]

theorem execCont_nil (ctx : Ctx) (st : S) (acc : Option Err)
    (evAcc : List Event) :
    execCont ctx ([] : List (Step S)) st acc evAcc = (acc, evAcc) := by
  rw [execCont]

theorem execCont_cons_ok (ctx : Ctx) (c : Step S) (rest : List (Step S))
    (st : S) (acc : Option Err) (evAcc : List Event) {ev : List Event}
    (hc : execWithContext ctx c st = (none, ev)) :
    execCont ctx (c :: rest) st acc evAcc =
      execCont ctx rest st acc (evAcc ++ ev) := by
  rw [execWithContext] at hc
  rw [execCont, hc]

theorem execCont_cons_err (ctx : Ctx) (c : Step S) (rest : List (Step S))
    (st : S) (acc : Option Err) (evAcc : List Event) {e : Err}
    {ev : List Event}
    (hc : execWithContext ctx c st = (some e, ev)) :
    execCont ctx (c :: rest) st acc evAcc =
      execCont ctx rest st
        (some (errJoinAcc acc (.wrapped (stepName c) e))) (evAcc ++ ev) := by
  rw [execWithContext] at hc
  rw [execCont, hc]

/-! ### Execution-claim helpers -/

/-- Concatenation of the event traces of a list of children, each run
through `execWithContext`. -/
def evConcat (ctx : Ctx) (st : S) : List (Step S) → List Event
  | [] => []
  | c :: rest => (execWithContext ctx c st).2 ++ evConcat ctx st rest

/-- The failures of a child list, in order: display name and error of
every failing child. -/
def contFails (ctx : Ctx) (st : S) : List (Step S) → List (String × Err)
  | [] => []
  | c :: rest =>
    match (execWithContext ctx c st).1 with
    | some e => (stepName c, e) :: contFails ctx st rest
    | none => contFails ctx st rest

/-- Folding `errors.Join` over a failure list, as `continueStep.Exec`
does. -/
def contAcc : Option Err → List (String × Err) → Option Err
  | acc, [] => acc
  | acc, p :: rest => contAcc (some (errJoinAcc acc (.wrapped p.1 p.2))) rest

/-! ### C9: conditionals -/

/-- C9: `If` runs its then-step iff the predicate is true, `IfNot` iff it
is false, each returning nil immediately otherwise; `IfElse` runs exactly
the branch chosen by the predicate. -/
theorem c9_conditionals (ctx : Ctx) (st : S) (cond : S → Bool)
    (t e : Step S) :
    (cond st = true → exec ctx (If cond t) st = execWithContext ctx t st) ∧
    (cond st = false → exec ctx (If cond t) st = (none, [])) ∧
    (cond st = true → exec ctx (IfNot cond t) st = (none, [])) ∧
    (cond st = false → exec ctx (IfNot cond t) st = execWithContext ctx t st) ∧
    (cond st = true → exec ctx (IfElse cond t e) st = execWithContext ctx t st) ∧
    (cond st = false → exec ctx (IfElse cond t e) st = execWithContext ctx e st) := by
  refine ⟨?_, ?_, ?_, ?_, ?_, ?_⟩ <;> intro hc <;>
    simp [If, IfNot, IfElse, exec_ifStep, exec_ifElseStep, hc]

/-- Witness for `c9_conditionals` on concrete inputs. -/
theorem c9_conditionals_witness :
    exec ⟨[], none⟩ (If (fun _ => true) (Step.stepFunc "t" (fun _ => none)))
        (0 : Nat)
      = execWithContext ⟨[], none⟩ (Step.stepFunc "t" (fun _ => none)) 0 ∧
    exec ⟨[], none⟩ (IfNot (fun _ => true) (Step.stepFunc "t" (fun _ => none)))
        (0 : Nat) = (none, []) ∧
    exec ⟨[], none⟩ (IfElse (fun _ => true) (Step.stepFunc "t" (fun _ => none))
        (Step.stepFunc "e" (fun _ => none))) (0 : Nat)
      = execWithContext ⟨[], none⟩ (Step.stepFunc "t" (fun _ => none)) 0 := by
  have h := c9_conditionals (S := Nat) ⟨[], none⟩ 0 (fun _ => true)
    (Step.stepFunc "t" (fun _ => none)) (Step.stepFunc "e" (fun _ => none))
  exact ⟨h.1 rfl, h.2.2.1 rfl, h.2.2.2.2.1 rfl⟩

/-! ### C7: Series -/

theorem execSeries_all_ok (ctx : Ctx) (st : S) :
    ∀ ss : List (Step S), (∀ c ∈ ss, (execWithContext ctx c st).1 = none) →
      execSeries ctx ss st = (none, evConcat ctx st ss) := by
  intro ss
  induction ss with
  | nil => intro _; simp [execSeries_nil, evConcat]
  | cons c rest ih =>
    intro hall
    have hc := hall c (by simp)
    rcases hx : execWithContext ctx c st with ⟨r, ev⟩
    rw [hx] at hc
    simp only at hc
    subst hc
    rw [execSeries_cons_ok ctx c rest st hx,
      ih (fun c2 hc2 => hall c2 (by simp [hc2]))]
    simp [prependEv, evConcat, hx]

theorem execSeries_first_err (ctx : Ctx) (st : S) (b : Step S) (e : Err)
    (evb : List Event) (post : List (Step S))
    (hb : execWithContext ctx b st = (some e, evb)) :
    ∀ pre : List (Step S), (∀ c ∈ pre, (execWithContext ctx c st).1 = none) →
      execSeries ctx (pre ++ b :: post) st = (some e, evConcat ctx st pre ++ evb) := by
  intro pre
  induction pre with
  | nil =>
    intro _
    simpa [evConcat] using execSeries_cons_err ctx b post st hb
  | cons c rest ih =>
    intro hall
    have hc := hall c (by simp)
    rcases hx : execWithContext ctx c st with ⟨r, ev⟩
    rw [hx] at hc
    simp only at hc
    subst hc
    rw [List.cons_append, execSeries_cons_ok ctx c _ st hx,
      ih (fun c2 hc2 => hall c2 (by simp [hc2]))]
    simp [prependEv, evConcat, hx, List.append_assoc]

/-- C7: `Series` runs children in order; if every child succeeds the
outcome is nil and all children ran; the first failing child terminates
the run, its error is returned without any wrapping, and no later child
contributes to the trace. -/
theorem c7_series (ctx : Ctx) (st : S) :
    (∀ ss : List (Step S), (∀ c ∈ ss, (execWithContext ctx c st).1 = none) →
      exec ctx (Series ss) st = (none, evConcat ctx st ss)) ∧
    (∀ (pre post : List (Step S)) (b : Step S) (e : Err) (evb : List Event),
      (∀ c ∈ pre, (execWithContext ctx c st).1 = none) →
      execWithContext ctx b st = (some e, evb) →
      exec ctx (Series (pre ++ b :: post)) st
        = (some e, evConcat ctx st pre ++ evb)) := by
  constructor
  · intro ss hall
    rw [Series, exec_seriesStep]
    exact execSeries_all_ok ctx st ss hall
  · intro pre post b e evb hall hb
    rw [Series, exec_seriesStep]
    exact execSeries_first_err ctx st b e evb post hb pre hall

/-- Witness for `c7_series`: a series over three leaves whose middle child
fails with the bare error; the third never runs. -/
theorem c7_series_witness :
    exec (⟨[], none⟩ : Ctx)
        (Series [Step.stepFunc "a" (fun _ => none),
                 Step.stepFunc "b" (fun _ => some (.base 7)),
                 Step.stepFunc "cc" (fun _ => none)]) (0 : Nat)
      = (some (.base 7), [.ran "a", .ran "b"]) := by
  have h := (c7_series (S := Nat) ⟨[], none⟩ 0).2
    [Step.stepFunc "a" (fun _ => none)]
    [Step.stepFunc "cc" (fun _ => none)]
    (Step.stepFunc "b" (fun _ => some (.base 7)))
    (.base 7) [.ran "b"]
    (by
      intro c hc
      simp only [List.mem_singleton] at hc
      subst hc
      simp [execWithContext, applyChain, exec_stepFunc])
    (by simp [execWithContext, applyChain, exec_stepFunc])
  simpa [evConcat, execWithContext, applyChain, exec_stepFunc] using h

/-! ### C6: BestEffortSequence (Continue) -/

theorem execCont_spec (ctx : Ctx) (st : S) :
    ∀ (ss : List (Step S)) (acc : Option Err) (evAcc : List Event),
      execCont ctx ss st acc evAcc
        = (contAcc acc (contFails ctx st ss), evAcc ++ evConcat ctx st ss) := by
  intro ss
  induction ss with
  | nil => intro acc evAcc; simp [execCont_nil, contFails, contAcc, evConcat]
  | cons c rest ih =>
    intro acc evAcc
    rcases hx : execWithContext ctx c st with ⟨r, ev⟩
    cases r with
    | none =>
      rw [execCont_cons_ok ctx c rest st acc evAcc hx, ih]
      simp [contFails, evConcat, hx, List.append_assoc]
    | some e =>
      rw [execCont_cons_err ctx c rest st acc evAcc hx, ih]
      simp [contFails, evConcat, contAcc, hx, List.append_assoc]

theorem contAcc_some_ne_none :
    ∀ (l : List (String × Err)) (x : Err), contAcc (some x) l ≠ none := by
  intro l
  induction l with
  | nil => intro x; simp [contAcc]
  | cons p rest ih => intro x; simpa [contAcc] using ih _

theorem contAcc_none_iff (l : List (String × Err)) :
    contAcc none l = none ↔ l = [] := by
  cases l with
  | nil => simp [contAcc]
  | cons p rest =>
    simp only [contAcc]
    constructor
    · intro h; exact absurd h (contAcc_some_ne_none rest _)
    · intro h; exact absurd h (by simp)

theorem contFails_nil_iff (ctx : Ctx) (st : S) (ss : List (Step S)) :
    contFails ctx st ss = [] ↔
      ∀ c ∈ ss, (execWithContext ctx c st).1 = none := by
  induction ss with
  | nil => simp [contFails]
  | cons c rest ih =>
    rcases hx : execWithContext ctx c st with ⟨r, ev⟩
    cases r with
    | none =>
      simp only [contFails, hx]
      rw [ih]
      constructor
      · intro hall c2 hc2
        rcases List.mem_cons.mp hc2 with he | hm
        · subst he; simp [hx]
        · exact hall c2 hm
      · intro hall c2 hc2
        exact hall c2 (by simp [hc2])
    | some e =>
      simp only [contFails, hx]
      constructor
      · intro h; exact absurd h (by simp)
      · intro hall
        have := hall c (by simp)
        rw [hx] at this
        simp at this

theorem errJoinAcc_isa (acc : Option Err) (w t : Err) (h : w.isa t = true) :
    (errJoinAcc acc w).isa t = true := by
  cases acc with
  | none => simpa [errJoinAcc] using Err.isa_joinedOne w t h
  | some a => simpa [errJoinAcc] using Err.isa_joinedPair_right a w t h

theorem contAcc_isa_mono :
    ∀ (l : List (String × Err)) (x r t : Err), x.isa t = true →
      contAcc (some x) l = some r → r.isa t = true := by
  intro l
  induction l with
  | nil =>
    intro x r t hx h
    simp only [contAcc, Option.some.injEq] at h
    exact h ▸ hx
  | cons p rest ih =>
    intro x r t hx h
    simp only [contAcc, errJoinAcc] at h
    exact ih _ r t (Err.isa_joinedPair_left _ _ _ hx) h

theorem contAcc_mem_isa :
    ∀ (l : List (String × Err)) (acc : Option Err) (r : Err),
      contAcc acc l = some r → ∀ p ∈ l,
        r.isa (Err.wrapped p.1 p.2) = true ∧ r.isa p.2 = true := by
  intro l
  induction l with
  | nil => intro acc r _ p hp; simp at hp
  | cons q rest ih =>
    intro acc r h p hp
    simp only [contAcc] at h
    rcases List.mem_cons.mp hp with he | hm
    · subst he
      constructor
      · exact contAcc_isa_mono rest _ r _
          (errJoinAcc_isa acc _ _ (Err.isa_refl _)) h
      · exact contAcc_isa_mono rest _ r _
          (errJoinAcc_isa acc _ _
            (Err.isa_wrapped p.1 p.2 p.2 (Err.isa_refl _))) h
    · exact ih _ r h p hm

theorem contFails_mem (ctx : Ctx) (st : S) :
    ∀ (ss : List (Step S)) (c : Step S), c ∈ ss →
      ∀ e, (execWithContext ctx c st).1 = some e →
        (stepName c, e) ∈ contFails ctx st ss := by
  intro ss
  induction ss with
  | nil => intro c hc; simp at hc
  | cons c0 rest ih =>
    intro c hc e he
    rcases List.mem_cons.mp hc with heq | hm
    · subst heq
      simp [contFails, he]
    · simp only [contFails]
      cases (execWithContext ctx c0 st).1 <;> simp [ih c hm e he]

/-- C6: `Continue` runs every child once, in order (the trace is the
concatenation of all child traces); the outcome is nil iff every child
succeeded; otherwise it is the order-preserving join of each failure
wrapped with the failing child's display name, and an is-a check against
each wrapped failure and each underlying cause succeeds; every failing
child contributes its entry. -/
theorem c6_continue (ctx : Ctx) (st : S) (ss : List (Step S)) :
    exec ctx (Continue ss) st
      = (contAcc none (contFails ctx st ss), evConcat ctx st ss) ∧
    (contAcc none (contFails ctx st ss) = none ↔
      ∀ c ∈ ss, (execWithContext ctx c st).1 = none) ∧
    (∀ r, contAcc none (contFails ctx st ss) = some r →
      ∀ p ∈ contFails ctx st ss,
        r.isa (Err.wrapped p.1 p.2) = true ∧ r.isa p.2 = true) ∧
    (∀ c ∈ ss, ∀ e, (execWithContext ctx c st).1 = some e →
      (stepName c, e) ∈ contFails ctx st ss) := by
  refine ⟨?_, ?_, ?_, ?_⟩
  · rw [Continue, exec_continueStep, execCont_spec]
    simp
  · rw [contAcc_none_iff, contFails_nil_iff]
  · intro r hr p hp
    exact contAcc_mem_isa _ none r hr p hp
  · intro c hc e he
    exact contFails_mem ctx st ss c hc e he

/-- Witness for `c6_continue`: two failing children among three; both
causes are is-a members of the combined error, all three children ran. -/
theorem c6_continue_witness :
    exec (⟨[], none⟩ : Ctx)
        (Continue [Step.stepFunc "a" (fun _ => some (.base 1)),
                   Step.stepFunc "b" (fun _ => none),
                   Step.stepFunc "cc" (fun _ => some (.base 2))]) (0 : Nat)
      = (some (.joinedPair (.joinedOne (.wrapped "a" (.base 1)))
               (.wrapped "cc" (.base 2))),
         [.ran "a", .ran "b", .ran "cc"]) ∧
    (Err.joinedPair (.joinedOne (.wrapped "a" (.base 1)))
        (.wrapped "cc" (.base 2))).isa (.base 1) = true ∧
    (Err.joinedPair (.joinedOne (.wrapped "a" (.base 1)))
        (.wrapped "cc" (.base 2))).isa (.base 2) = true := by
  have h := c6_continue (S := Nat) ⟨[], none⟩ 0
    [Step.stepFunc "a" (fun _ => some (.base 1)),
     Step.stepFunc "b" (fun _ => none),
     Step.stepFunc "cc" (fun _ => some (.base 2))]
  refine ⟨?_, ?_, ?_⟩
  · have h1 := h.1
    simpa [contFails, contAcc, errJoinAcc, evConcat, stepName, execWithContext,
      applyChain, exec_stepFunc] using h1
  · have h3 := h.2.2.1
      (.joinedPair (.joinedOne (.wrapped "a" (.base 1))) (.wrapped "cc" (.base 2)))
      (by simp [contFails, contAcc, errJoinAcc, stepName, execWithContext,
        applyChain, exec_stepFunc])
      ("a", .base 1)
      (by simp [contFails, stepName, execWithContext, applyChain, exec_stepFunc])
    simpa using h3.2
  · have h3 := h.2.2.1
      (.joinedPair (.joinedOne (.wrapped "a" (.base 1))) (.wrapped "cc" (.base 2)))
      (by simp [contFails, contAcc, errJoinAcc, stepName, execWithContext,
        applyChain, exec_stepFunc])
      ("cc", .base 2)
      (by simp [contFails, stepName, execWithContext, applyChain, exec_stepFunc])
    simpa using h3.2

/-! ### C3: Result semantics -/

/-- C3: `Result(main, success, handler)` semantics.  When main succeeds,
the success step runs and its outcome is the Result's outcome — note the
right-hand side does not mention the handler at all, so it is never
consulted.  When main fails: an absent handler returns the main error
unchanged; a handler selecting no step returns the main error unchanged;
a selected step runs with the triggering error attached to the derived
context, and its own outcome (nil or error) becomes the Result's outcome,
the original main error not being propagated. -/
theorem c3_result (ctx : Ctx) (st : S) (m sc : Step S) (h : Handler S) :
    (∀ ev, execWithContext ctx m st = (none, ev) →
      exec ctx (Result m sc h) st
        = ((execWithContext ctx sc st).1, ev ++ (execWithContext ctx sc st).2)) ∧
    (∀ e ev, execWithContext ctx m st = (some e, ev) →
      (h = .hnone → exec ctx (Result m sc h) st = (some e, ev)) ∧
      (resultSelect ctx h e = none →
        exec ctx (Result m sc h) st = (some e, ev)) ∧
      (∀ sel, resultSelect ctx h e = some sel →
        exec ctx (Result m sc h) st
          = ((execWithContext ⟨ctx.chain, some e⟩ sel st).1,
             ev ++ (execWithContext ⟨ctx.chain, some e⟩ sel st).2))) := by
  constructor
  · intro ev hm
    rw [Result, exec_resultStep_success ctx m sc h st hm]
    rfl
  · intro e ev hm
    refine ⟨?_, ?_, ?_⟩
    · intro hh
      subst hh
      exact exec_resultStep_unhandled ctx m sc _ st hm rfl
    · intro hs
      exact exec_resultStep_unhandled ctx m sc h st hm hs
    · intro sel hs
      rw [Result, exec_resultStep_handled ctx m sc h st hm hs]
      rfl

/-- Witness for `c3_result` on concrete inputs: a succeeding main (the
success outcome is returned), and a failing main with an absent handler
(error unchanged), with a never-matching handler (error unchanged), and
with a selecting handler (its step's nil outcome absorbs the error). -/
theorem c3_result_witness :
    exec (⟨[], none⟩ : Ctx)
        (Result (Step.stepFunc "m" (fun _ => none))
          (Step.stepFunc "s" (fun _ => some (.base 3)))
          (Handler.ofStep (Step.stepFunc "f" (fun _ => none)))) (0 : Nat)
      = (some (.base 3), [.ran "m", .ran "s"]) ∧
    exec (⟨[], none⟩ : Ctx)
        (Result (Step.stepFunc "m" (fun _ => some (.base 4)))
          (Step.stepFunc "s" (fun _ => none)) Handler.hnone) (0 : Nat)
      = (some (.base 4), [.ran "m"]) ∧
    exec (⟨[], none⟩ : Ctx)
        (Result (Step.stepFunc "m" (fun _ => some (.base 4)))
          (Step.stepFunc "s" (fun _ => none))
          (HandleMultiFailure [NewBranch (fun _ _ => false)
            (Step.stepFunc "f" (fun _ => none))])) (0 : Nat)
      = (some (.base 4), [.ran "m"]) ∧
    exec (⟨[], none⟩ : Ctx)
        (Result (Step.stepFunc "m" (fun _ => some (.base 4)))
          (Step.stepFunc "s" (fun _ => none))
          (Handler.ofStep (Step.stepFunc "f" (fun _ => none)))) (0 : Nat)
      = (none, [.ran "m", .ran "f"]) := by
  refine ⟨?_, ?_, ?_, ?_⟩
  · have h := (c3_result (S := Nat) ⟨[], none⟩ 0
      (Step.stepFunc "m" (fun _ => none))
      (Step.stepFunc "s" (fun _ => some (.base 3)))
      (Handler.ofStep (Step.stepFunc "f" (fun _ => none)))).1
      [.ran "m"]
      (by simp [execWithContext, applyChain, exec_stepFunc])
    simpa [execWithContext, applyChain, exec_stepFunc] using h
  · have h := ((c3_result (S := Nat) ⟨[], none⟩ 0
      (Step.stepFunc "m" (fun _ => some (.base 4)))
      (Step.stepFunc "s" (fun _ => none)) Handler.hnone).2
      (.base 4) [.ran "m"]
      (by simp [execWithContext, applyChain, exec_stepFunc])).1 rfl
    exact h
  · have h := ((c3_result (S := Nat) ⟨[], none⟩ 0
      (Step.stepFunc "m" (fun _ => some (.base 4)))
      (Step.stepFunc "s" (fun _ => none))
      (HandleMultiFailure [NewBranch (fun _ _ => false)
        (Step.stepFunc "f" (fun _ => none))])).2
      (.base 4) [.ran "m"]
      (by simp [execWithContext, applyChain, exec_stepFunc])).2.1
      (by simp [resultSelect, HandleMultiFailure, Handler.select, selectMulti,
        NewBranch, FB.select])
    exact h
  · have h := ((c3_result (S := Nat) ⟨[], none⟩ 0
      (Step.stepFunc "m" (fun _ => some (.base 4)))
      (Step.stepFunc "s" (fun _ => none))
      (Handler.ofStep (Step.stepFunc "f" (fun _ => none)))).2
      (.base 4) [.ran "m"]
      (by simp [execWithContext, applyChain, exec_stepFunc])).2.2
      (Step.stepFunc "f" (fun _ => none))
      (by simp [resultSelect, Handler.select])
    simpa [execWithContext, applyChain, exec_stepFunc] using h

/-! ### C2: HandleMultiFailure selection -/

/-- Whether a branch matches: a selector branch matches when its selector
returns true; a default branch matches unconditionally. -/
def FB.matches : FB S → Ctx → Err → Bool
  | .branch sel _, ctx, e => sel ctx e
  | .dflt _, _, _ => true

/-- The step carried by a branch. -/
def FB.stepOf : FB S → Step S
  | .branch _ s => s
  | .dflt s => s

theorem FB.select_eq_matches (b : FB S) (ctx : Ctx) (e : Err) :
    b.select ctx e = if b.matches ctx e then some b.stepOf else none := by
  cases b with
  | branch sel s => simp [FB.select, FB.matches, FB.stepOf]
  | dflt s => simp [FB.select, FB.matches, FB.stepOf]

theorem selectMulti_eq_find (bs : List (FB S)) (ctx : Ctx) (e : Err) :
    selectMulti bs ctx e
      = (bs.find? (fun b => b.matches ctx e)).map FB.stepOf := by
  induction bs with
  | nil => simp [selectMulti]
  | cons b rest ih =>
    simp only [selectMulti, FB.select_eq_matches]
    cases hb : b.matches ctx e with
    | true => simp [List.find?_cons_of_pos, hb]
    | false => simp [List.find?_cons_of_neg, hb, ih]

theorem FB.select_none_of_not_matches {b : FB S} {ctx : Ctx} {e : Err}
    (h : b.matches ctx e = false) : b.select ctx e = none := by
  rw [FB.select_eq_matches, h]
  simp

/-- C2, amended: the multi-failure handler returns the step of the first
registered branch that matches, where a selector branch matches when its
selector(context, error) is true and a default branch matches
unconditionally (conjuncts 1 and 2); consequently, when the default is
registered after all selector branches, its step is returned only when no
selector matched; when nothing matches (hence no default was registered,
since a default always matches), nothing is selected (conjunct 3) and the
enclosing Result returns the main error unchanged (conjunct 4); when a
step is selected, only that step's outcome and trace contribute — at most
one branch's step executes (conjunct 5). -/
theorem c2_multi_failure (ctx : Ctx) (st : S) (e : Err) (bs : List (FB S))
    (m sc : Step S) :
    (Handler.select (HandleMultiFailure bs) ctx e
      = (bs.find? (fun b => b.matches ctx e)).map FB.stepOf) ∧
    (∀ (pre rest : List (FB S)) (sel : Ctx → Err → Bool) (s : Step S),
      bs = pre ++ .branch sel s :: rest →
      (∀ b ∈ pre, b.matches ctx e = false) → sel ctx e = true →
      Handler.select (HandleMultiFailure bs) ctx e = some s) ∧
    ((∀ b ∈ bs, b.matches ctx e = false) →
      Handler.select (HandleMultiFailure bs) ctx e = none) ∧
    (∀ ev, execWithContext ctx m st = (some e, ev) →
      Handler.select (HandleMultiFailure bs) ctx e = none →
      exec ctx (Result m sc (HandleMultiFailure bs)) st = (some e, ev)) ∧
    (∀ ev s2, execWithContext ctx m st = (some e, ev) →
      Handler.select (HandleMultiFailure bs) ctx e = some s2 →
      exec ctx (Result m sc (HandleMultiFailure bs)) st
        = ((execWithContext ⟨ctx.chain, some e⟩ s2 st).1,
           ev ++ (execWithContext ⟨ctx.chain, some e⟩ s2 st).2)) := by
  refine ⟨selectMulti_eq_find bs ctx e, ?_, ?_, ?_, ?_⟩
  · intro pre rest sel s hbs hpre hsel
    subst hbs
    simp only [HandleMultiFailure, Handler.select]
    induction pre with
    | nil => simp [selectMulti, FB.select, hsel]
    | cons b pre2 ih =>
      have hb := FB.select_none_of_not_matches (hpre b (by simp))
      simp only [List.cons_append, selectMulti, hb]
      exact ih (fun b2 hb2 => hpre b2 (by simp [hb2]))
  · intro hall
    simp only [HandleMultiFailure, Handler.select]
    induction bs with
    | nil => simp [selectMulti]
    | cons b rest ih =>
      have hb := FB.select_none_of_not_matches (hall b (by simp))
      simp only [selectMulti, hb]
      exact ih (fun b2 hb2 => hall b2 (by simp [hb2]))
  · intro ev hm hsel
    exact exec_resultStep_unhandled ctx m sc _ st hm
      (by simpa [resultSelect, HandleMultiFailure] using hsel)
  · intro ev s2 hm hsel
    rw [Result, exec_resultStep_handled ctx m sc _ st hm
      (by simpa [resultSelect, HandleMultiFailure] using hsel)]
    rfl

/-- Witness for `c2_multi_failure` on concrete inputs: a default
registered last is chosen only because neither selector matched; an error
matching only the second branch selects the second branch's step; the
enclosing Result runs exactly the selected step. -/
theorem c2_multi_failure_witness :
    Handler.select (S := Nat)
      (HandleMultiFailure
        [NewBranch (fun _ e => e.isa (.base 1)) (Step.stepFunc "b1" (fun _ => none)),
         NewBranch (fun _ e => e.isa (.base 2)) (Step.stepFunc "b2" (fun _ => none)),
         DefaultBranch (Step.stepFunc "d" (fun _ => none))])
      ⟨[], none⟩ (.base 2) = some (Step.stepFunc "b2" (fun _ => none)) ∧
    Handler.select (S := Nat)
      (HandleMultiFailure
        [NewBranch (fun _ e => e.isa (.base 1)) (Step.stepFunc "b1" (fun _ => none)),
         NewBranch (fun _ e => e.isa (.base 2)) (Step.stepFunc "b2" (fun _ => none)),
         DefaultBranch (Step.stepFunc "d" (fun _ => none))])
      ⟨[], none⟩ (.base 9) = some (Step.stepFunc "d" (fun _ => none)) ∧
    exec (⟨[], none⟩ : Ctx)
      (Result (Step.stepFunc "m" (fun _ => some (.base 2)))
        (Step.stepFunc "s" (fun _ => none))
        (HandleMultiFailure
          [NewBranch (fun _ e => e.isa (.base 1)) (Step.stepFunc "b1" (fun _ => none)),
           NewBranch (fun _ e => e.isa (.base 2)) (Step.stepFunc "b2" (fun _ => none)),
           DefaultBranch (Step.stepFunc "d" (fun _ => none))])) (0 : Nat)
      = (none, [.ran "m", .ran "b2"]) := by
  refine ⟨?_, ?_, ?_⟩
  · have h := (c2_multi_failure (S := Nat) ⟨[], none⟩ 0 (.base 2)
      [NewBranch (fun _ e => e.isa (.base 1)) (Step.stepFunc "b1" (fun _ => none)),
       NewBranch (fun _ e => e.isa (.base 2)) (Step.stepFunc "b2" (fun _ => none)),
       DefaultBranch (Step.stepFunc "d" (fun _ => none))]
      (Step.stepFunc "m" (fun _ => some (.base 2)))
      (Step.stepFunc "s" (fun _ => none))).2.1
      [NewBranch (fun _ e => e.isa (.base 1)) (Step.stepFunc "b1" (fun _ => none))]
      [DefaultBranch (Step.stepFunc "d" (fun _ => none))]
      (fun _ e => e.isa (.base 2)) (Step.stepFunc "b2" (fun _ => none))
      (by simp [NewBranch, DefaultBranch])
      (by
        intro b hb
        simp only [List.mem_singleton] at hb
        subst hb
        simp [NewBranch, FB.matches, Err.isa])
      (by simp [Err.isa])
    exact h
  · have h := (c2_multi_failure (S := Nat) ⟨[], none⟩ 0 (.base 9)
      [NewBranch (fun _ e => e.isa (.base 1)) (Step.stepFunc "b1" (fun _ => none)),
       NewBranch (fun _ e => e.isa (.base 2)) (Step.stepFunc "b2" (fun _ => none)),
       DefaultBranch (Step.stepFunc "d" (fun _ => none))]
      (Step.stepFunc "m" (fun _ => some (.base 9)))
      (Step.stepFunc "s" (fun _ => none))).1
    simpa [NewBranch, DefaultBranch, FB.matches, FB.stepOf, Err.isa,
      List.find?] using h
  · have h := (c2_multi_failure (S := Nat) ⟨[], none⟩ 0 (.base 2)
      [NewBranch (fun _ e => e.isa (.base 1)) (Step.stepFunc "b1" (fun _ => none)),
       NewBranch (fun _ e => e.isa (.base 2)) (Step.stepFunc "b2" (fun _ => none)),
       DefaultBranch (Step.stepFunc "d" (fun _ => none))]
      (Step.stepFunc "m" (fun _ => some (.base 2)))
      (Step.stepFunc "s" (fun _ => none))).2.2.2.2
      [.ran "m"] (Step.stepFunc "b2" (fun _ => none))
      (by simp [execWithContext, applyChain, exec_stepFunc])
      (by simp [HandleMultiFailure, Handler.select, selectMulti, NewBranch,
        DefaultBranch, FB.select, Err.isa])
    simpa [execWithContext, applyChain, exec_stepFunc] using h

/-- C2 as stated fails when a default branch is registered before a
selector branch: the default, which matches unconditionally, preempts the
later branch whose selector is true, so the returned step is the
default's, not that of the first branch whose selector matched. -/
theorem c2_default_first_counterexample :
    Handler.select (S := Nat)
      (HandleMultiFailure
        [DefaultBranch (Step.stepFunc "default" (fun _ => none)),
         NewBranch (fun _ _ => true) (Step.stepFunc "selected" (fun _ => none))])
      ⟨[], none⟩ (.base 0)
      = some (Step.stepFunc "default" (fun _ => none)) ∧
    ((fun (_ : Ctx) (_ : Err) => true) ⟨[], none⟩ (Err.base 0) = true) ∧
    Step.stepFunc (S := Nat) "default" (fun _ => none)
      ≠ Step.stepFunc "selected" (fun _ => none) := by
  refine ⟨rfl, rfl, ?_⟩
  intro h
  simp only [Step.stepFunc.injEq] at h
  exact absurd h.1 (by decide)

/-! ### C8: the error-aware step and the context error channel -/

/-- C8: an error-aware step observes exactly the branching-error value of
its execution context (conjunct 1, with any context value `r`); run as
the step selected by a Result's failure handler it observes exactly the
error that triggered that Result's failure path, for ANY surrounding
context value — in particular a nested outer Result's error in
`ctx.resErr` is overwritten, never seen (conjunct 2); run at the top
level, outside any Result failure path, it observes nil (conjunct 3). -/
theorem c8_err_observation (st : S) (nm : String)
    (f : Option Err → S → Option Err) :
    (∀ r : Option Err,
      exec ⟨[], r⟩ (.stepWithErr nm f) st = (f r st, [.obs nm r])) ∧
    (∀ (ctx : Ctx) (m sc : Step S) (h : Handler S) (e : Err)
        (ev : List Event),
      ctx.chain = [] →
      execWithContext ctx m st = (some e, ev) →
      resultSelect ctx h e = some (.stepWithErr nm f) →
      exec ctx (Result m sc h) st
        = (f (some e) st, ev ++ [.obs nm (some e)])) ∧
    execRoot [] (.stepWithErr nm f) st = (f none st, [.obs nm none]) := by
  have hbase : ∀ r : Option Err,
      exec (⟨[], r⟩ : Ctx) (.stepWithErr nm f) st = (f r st, [.obs nm r]) := by
    intro r
    rw [exec_stepWithErr]
    simp [applyChain, exec_stepWithErrInner]
  refine ⟨hbase, ?_, ?_⟩
  · intro ctx m sc h e ev hchain hm hsel
    rw [Result, exec_resultStep_handled ctx m sc h st hm hsel]
    have hctx : (⟨ctx.chain, some e⟩ : Ctx) = ⟨[], some e⟩ := by rw [hchain]
    rw [hctx]
    have : execWithContext (⟨[], some e⟩ : Ctx) (.stepWithErr nm f) st
        = (f (some e) st, [.obs nm (some e)]) := by
      rw [execWithContext]
      simpa [applyChain] using hbase (some e)
    rw [this]
    rfl
  · rw [execRoot]
    simpa [applyChain] using hbase none

/-- Witness for `c8_err_observation`: the outer context already carries a
(different) branching error, the main step fails with `base 0`, and the
error-aware step selected by the handler observes exactly `base 0`;
standalone at the root it observes nil. -/
theorem c8_err_observation_witness :
    exec (⟨[], some (.base 9)⟩ : Ctx)
      (Result (Step.stepFunc "m" (fun _ => some (.base 0)))
        (Step.stepFunc "s" (fun _ => none))
        (Handler.ofStep (Step.stepWithErr "w" (fun r _ => r)))) (0 : Nat)
      = (some (.base 0), [.ran "m", .obs "w" (some (.base 0))]) ∧
    execRoot [] (Step.stepWithErr (S := Nat) "w" (fun r _ => r)) 0
      = (none, [.obs "w" none]) := by
  have h := c8_err_observation (S := Nat) 0 "w" (fun r _ => r)
  constructor
  · have h2 := h.2.1 ⟨[], some (.base 9)⟩
      (Step.stepFunc "m" (fun _ => some (.base 0)))
      (Step.stepFunc "s" (fun _ => none))
      (Handler.ofStep (Step.stepWithErr "w" (fun r _ => r)))
      (.base 0) [.ran "m"]
      rfl
      (by simp [execWithContext, applyChain, exec_stepFunc])
      (by simp [resultSelect, Handler.select])
    exact h2
  · exact h.2.2

/-! ### C5: middleware chaining and ordering -/

/-- C5: chain application folds interceptors from last-registered to
first-registered over the target step (conjunct 1, the fold form), so the
first-registered interceptor is the outermost wrapper: a chain
`[L1, L2]` wrapped around any step yields, around the inner trace, the
order L1-start, L2-start, inner, L2-done, L1-done with the outcome passed
through (conjunct 2); dynamically resolved child steps are re-wrapped
with the chain carried by the execution context (conjunct 3, the
definition of `execWithContext` used by every composite); the executor
wraps the root the same way (conjunct 4). -/
theorem c5_middleware_order (t1 t2 : String) (i : Info) (s : Step S) :
    (∀ (mwc : List Mw) (next : Step S) (inf : Info),
      applyChain mwc next inf
        = mwc.foldr (fun mw acc => applyMw mw acc inf) next) ∧
    (∀ (ctx : Ctx) (st : S),
      exec ctx (applyChain [.log t1, .log t2] s i) st
        = ((exec ctx s st).1,
           .start t1 i.name :: .start t2 i.name ::
             ((exec ctx s st).2 ++ [.done t2 i.name, .done t1 i.name]))) ∧
    (∀ (ctx : Ctx) (c : Step S) (st : S),
      execWithContext ctx c st
        = exec ctx (applyChain ctx.chain c (stepInfo c)) st) ∧
    (∀ st : S,
      execRoot [.log t1, .log t2] s st
        = ((exec ⟨[.log t1, .log t2], none⟩ s st).1,
           .start t1 (stepName s) :: .start t2 (stepName s) ::
             ((exec ⟨[.log t1, .log t2], none⟩ s st).2
               ++ [.done t2 (stepName s), .done t1 (stepName s)]))) := by
  have hfold : ∀ (mwc : List Mw) (next : Step S) (inf : Info),
      applyChain mwc next inf
        = mwc.foldr (fun mw acc => applyMw mw acc inf) next := by
    intro mwc next inf
    induction mwc with
    | nil => rfl
    | cons mw rest ih => simp [applyChain, ih]
  have hwrap : ∀ (ctx : Ctx) (st : S) (inf : Info),
      exec ctx (applyChain [.log t1, .log t2] s inf) st
        = ((exec ctx s st).1,
           .start t1 inf.name :: .start t2 inf.name ::
             ((exec ctx s st).2 ++ [.done t2 inf.name, .done t1 inf.name])) := by
    intro ctx st inf
    show exec ctx (.traced t1 inf (.traced t2 inf s)) st = _
    rw [exec_traced, exec_traced]
    rcases exec ctx s st with ⟨r, ev⟩
    simp [tracedWrap]
  refine ⟨hfold, fun ctx st => hwrap ctx st i, fun _ _ _ => rfl, ?_⟩
  intro st
  rw [execRoot]
  exact hwrap ⟨[.log t1, .log t2], none⟩ st (stepInfo s)
